import Mathlib

/-!
Shallow embedding of the workspace-tree / tri-state-selection engine of
`rust-dioxus-ai-tool`, covering `src/components/file_tree.rs`,
`src/gitignore_handler.rs`, `src/workspace_event_handler.rs` and the
`concat_files` routine of `src/fs_utils.rs`, together with theorems about the
tree builder, the selection recompute, the toggle handler, the gitignore
seeding pipeline and the concatenation format.

Filesystem paths are modelled as an absoluteness flag plus the list of normal
path components, mirroring how Rust `Path::components` yields an optional
`RootDir` followed by `Normal` components.
-/

/-- Filesystem path: `absolute` models a leading `/` (Rust `has_root`),
`comps` the normal components in order. -/
structure FsPath where
  absolute : Bool
  comps : List String
deriving DecidableEq

namespace FsPath

/-- Component list with the root marker made explicit, mirroring how Rust
`Path::components` yields `RootDir` (rendered "/") before the normal
components.  Used for `starts_with` / `strip_prefix` comparisons. -/
def compList (p : FsPath) : List String :=
  (if p.absolute then ["/"] else []) ++ p.comps

/-- Inverse of `compList`: rebuild a path from a component list that may
start with the root marker. -/
def ofCompList (l : List String) : FsPath :=
  if l.head? = some "/" then ⟨true, l.tail⟩ else ⟨false, l⟩

/-- Rust `Path::starts_with`: component-wise comparison. -/
def startsWith (p base : FsPath) : Bool :=
  base.compList.isPrefixOf p.compList

/-- Rust `Path::strip_prefix`: `some` of the remainder when `base`'s
components lead `p`'s, `none` otherwise. -/
def stripRoot (p base : FsPath) : Option FsPath :=
  if base.compList.isPrefixOf p.compList then
    some (ofCompList (p.compList.drop base.compList.length))
  else none

/-- Rust `Path::parent`: drop the last component; `none` when no component is
left to drop (parent of `/` and of the empty path is `None`). -/
def parent? (p : FsPath) : Option FsPath :=
  match p.comps with
  | [] => none
  | _ :: _ => some ⟨p.absolute, p.comps.dropLast⟩

/-- Rust `PathBuf::push` of further normal components. -/
def extend (p : FsPath) (more : List String) : FsPath :=
  ⟨p.absolute, p.comps ++ more⟩

/-- Rust `to_string_lossy` rendering of a path. -/
def render (p : FsPath) : String :=
  (if p.absolute then "/" else "") ++ String.intercalate "/" p.comps

end FsPath

/-- Bytewise character comparison (kernel-reducible). -/
def charLtB (a b : Char) : Bool := decide (a.toNat < b.toNat)

/-- Lexicographic strict order on character lists, modelling Rust's `Ord` on
`OsStr` contents. -/
def strLtB : List Char → List Char → Bool
  | [], [] => false
  | [], _ :: _ => true
  | _ :: _, [] => false
  | a :: as, b :: bs => if a = b then strLtB as bs else charLtB a b

/-- Lexicographic strict order on component lists, modelling the component-wise
`Ord` instance on `PathBuf`. -/
def compsLtB : List String → List String → Bool
  | [], [] => false
  | [], _ :: _ => true
  | _ :: _, [] => false
  | a :: as, b :: bs => if a = b then compsLtB as bs else strLtB a.data b.data

/-- Path order used by `sorted_files.sort_by_key(|f| f.path.clone())`: a
leading `RootDir` component orders absolute paths before relative ones, then
the normal components compare lexicographically. -/
def pathLtB (p q : FsPath) : Bool :=
  if p.absolute = q.absolute then compsLtB p.comps q.comps else p.absolute

/-- FileInfo (fs_utils.rs lines 41-47). -/
structure FileInfo where
  name : String
  path : FsPath
  size : Nat
  token_count : Nat
deriving DecidableEq

/-- TreeNodeType (file_tree.rs lines 8-12). -/
inductive TreeNodeType where
  | File
  | Folder
deriving DecidableEq

/-- NodeSelectionState (file_tree.rs lines 14-19). -/
inductive NodeSelectionState where
  | Selected
  | NotSelected
  | PartiallySelected
deriving DecidableEq

/-- Tree node, as in `FileTreeNodeBlueprint` (file_tree.rs lines 23-32); the
signal-bearing `FileTreeNode` (lines 36-45) carries the same data with
`is_expanded` and `selection_state` wrapped in `Signal`s, so one structure
serves for both. -/
structure FileTreeNode where
  id : Nat
  name : String
  path : FsPath
  node_type : TreeNodeType
  children : List FileTreeNode
  is_expanded : Bool
  selection_state : NodeSelectionState
  depth : Nat

/-- Helper for `find_or_create_blueprint_node` (file_tree.rs lines 79-83):
locate the first child matching `(name, Folder)`, returning the children
before it, the child itself, and the children after it. -/
def splitAtFolder (name : String) :
    List FileTreeNode → Option (List FileTreeNode × FileTreeNode × List FileTreeNode)
  | [] => none
  | c :: cs =>
    if c.name = name ∧ c.node_type = TreeNodeType.Folder then some ([], c, cs)
    else (splitAtFolder name cs).map (fun x => (c :: x.1, x.2.1, x.2.2))

/-- Body of the per-file loop of `build_tree_from_file_info` (file_tree.rs
lines 146-201): walk the structural components left to right; every non-final
component finds-or-creates a `Folder` node (`find_or_create_blueprint_node`
appends a missing folder at the end of the children list, with the
accumulated absolute folder path and `is_expanded` true exactly at depth 0);
the final component appends a `File` node carrying the original absolute path
unless a file with that exact path already exists at that level.  Returns the
updated children list and id counter. -/
def insertComps (root filePath : FsPath) (sel : NodeSelectionState) :
    List String → List String → Nat → List FileTreeNode → Nat →
    List FileTreeNode × Nat
  | [], _, _, children, counter => (children, counter)
  | [name], _, depth, children, counter =>
    if children.any (fun n =>
        decide (n.path = filePath ∧ n.node_type = TreeNodeType.File)) then
      (children, counter)
    else
      (children ++ [{ id := counter, name := name, path := filePath,
                      node_type := TreeNodeType.File, children := [],
                      is_expanded := false, selection_state := sel,
                      depth := depth }], counter + 1)
  | name :: comps₂ :: comps, acc, depth, children, counter =>
    match splitAtFolder name children with
    | some (pre, c, post) =>
      let r := insertComps root filePath sel (comps₂ :: comps) (acc ++ [name])
        (depth + 1) c.children counter
      (pre ++ [{ c with children := r.1 }] ++ post, r.2)
    | none =>
      let r := insertComps root filePath sel (comps₂ :: comps) (acc ++ [name])
        (depth + 1) [] (counter + 1)
      (children ++ [{ id := counter, name := name,
                      path := root.extend (acc ++ [name]),
                      node_type := TreeNodeType.Folder, children := r.1,
                      is_expanded := decide (depth = 0),
                      selection_state := NodeSelectionState.NotSelected,
                      depth := depth }], r.2)

/-- Structural components of a file relative to the workspace root
(file_tree.rs lines 122-131): the `strip_prefix` result when it yields a
non-empty component sequence, otherwise the fallback single component made
from the bare file name (`PathBuf::from(file_info.name)`, which has no
components when the name is empty). -/
def relComps (workspace_root : FsPath) (f : FileInfo) : List String :=
  match f.path.stripRoot workspace_root with
  | some rel =>
    if rel.compList ≠ [] then rel.compList
    else if f.name = "" then [] else [f.name]
  | none => if f.name = "" then [] else [f.name]

/-- Insertion sort by `pathLtB`, modelling the stable
`sorted_files.sort_by_key(|f| f.path.clone())` (file_tree.rs lines 112-113). -/
def insertByPath (f : FileInfo) : List FileInfo → List FileInfo
  | [] => [f]
  | g :: gs => if pathLtB g.path f.path then g :: insertByPath f gs else f :: g :: gs

/-- Stable sort of the input records by path. -/
def sortByPath : List FileInfo → List FileInfo
  | [] => []
  | f :: fs => insertByPath f (sortByPath fs)

/-- build_tree_from_file_info (file_tree.rs lines 102-204): sort the records
by path, then insert each one in turn into the growing forest, threading the
unique id counter. -/
def build_tree_from_file_info (files : List FileInfo) (selected_paths : Finset FsPath)
    (workspace_root : FsPath) : List FileTreeNode :=
  if files.isEmpty then [] else
  ((sortByPath files).foldl (fun st f =>
      let sel := if f.path ∈ selected_paths then NodeSelectionState.Selected
                 else NodeSelectionState.NotSelected
      insertComps workspace_root f.path sel (relComps workspace_root f) [] 0 st.1 st.2)
    (([] : List FileTreeNode), 0)).1

mutual

/-- FileTreeNode::collect_all_file_paths_recursive (file_tree.rs lines 49-66):
a `File` node yields its own path; a `Folder` node yields, for each child in
order, the child's path if it is a file and the child's recursive collection
if it is a folder. -/
def collect_all_file_paths_recursive : FileTreeNode → List FsPath
  | ⟨_, _, p, t, cs, _, _, _⟩ =>
    if t = TreeNodeType.File then [p] else collectChildPaths cs

/-- Loop of `collect_all_file_paths_recursive` over the children list. -/
def collectChildPaths : List FileTreeNode → List FsPath
  | [] => []
  | c :: cs =>
    (if c.node_type = TreeNodeType.File then [c.path]
     else collect_all_file_paths_recursive c) ++ collectChildPaths cs

end

mutual

/-- convert_blueprint_to_file_tree_node_recursive (file_tree.rs lines
209-279), with the Dioxus `Signal` wrappers erased: children are converted
first, then a `File` node keeps its blueprint state while a `Folder` node's
state is aggregated from the converted children exactly as in the source
(empty children give `NotSelected`; otherwise all-selected gives `Selected`,
any selected or partially selected child gives `PartiallySelected`, and
`NotSelected` remains). -/
def recomputeNode : FileTreeNode → FileTreeNode
  | ⟨i, nm, p, t, cs, e, s, d⟩ =>
    let children_nodes := recomputeForest cs
    let st :=
      if t = TreeNodeType.File then s
      else if children_nodes.isEmpty then NodeSelectionState.NotSelected
      else
        let all_children_selected := children_nodes.all (fun c =>
          decide (c.selection_state = NodeSelectionState.Selected))
        let any_child_selected := children_nodes.any (fun c =>
          decide (c.selection_state = NodeSelectionState.Selected))
        let any_child_partially_selected := children_nodes.any (fun c =>
          decide (c.selection_state = NodeSelectionState.PartiallySelected))
        if all_children_selected then NodeSelectionState.Selected
        else if any_child_selected || any_child_partially_selected then
          NodeSelectionState.PartiallySelected
        else NodeSelectionState.NotSelected
    ⟨i, nm, p, t, children_nodes, e, st, d⟩

/-- Conversion of a whole children list / forest, as in the
`blueprint.children.into_iter().map(...)` step. -/
def recomputeForest : List FileTreeNode → List FileTreeNode
  | [] => []
  | c :: cs => recomputeNode c :: recomputeForest cs

end

/-- Checkbox `oninput` handler of `FileTreeNodeDisplay` (file_tree.rs lines
446-479): the effect of one toggle on the `selected_paths` set.  A file
inserts or removes its own path; a folder inserts or removes every collected
descendant file path in one batch. -/
def toggleNode (node : FileTreeNode) (is_checked : Bool)
    (selected_paths : Finset FsPath) : Finset FsPath :=
  match node.node_type with
  | TreeNodeType.File =>
    if is_checked then insert node.path selected_paths
    else selected_paths.erase node.path
  | TreeNodeType.Folder =>
    (collect_all_file_paths_recursive node).foldl
      (fun s p => if is_checked then insert p s else s.erase p) selected_paths

mutual

/-- All nodes of a subtree, the node itself first. -/
def subNodes : FileTreeNode → List FileTreeNode
  | ⟨i, nm, p, t, cs, e, s, d⟩ => ⟨i, nm, p, t, cs, e, s, d⟩ :: forestNodes cs

/-- All nodes of all trees of a forest. -/
def forestNodes : List FileTreeNode → List FileTreeNode
  | [] => []
  | c :: cs => subNodes c ++ forestNodes cs

end

mutual

/-- Relabelling of a tree by a selection set: file nodes get the state that
membership in the set dictates, folder nodes the provisional `NotSelected`.
The tree builder's output factors through this map. -/
def applySel (S : Finset FsPath) : FileTreeNode → FileTreeNode
  | ⟨i, nm, p, t, cs, e, _, d⟩ =>
    ⟨i, nm, p, t, applySelForest S cs, e,
      if t = TreeNodeType.File then
        (if p ∈ S then NodeSelectionState.Selected else NodeSelectionState.NotSelected)
      else NodeSelectionState.NotSelected, d⟩

/-- Relabelling of a children list / forest. -/
def applySelForest (S : Finset FsPath) : List FileTreeNode → List FileTreeNode
  | [] => []
  | c :: cs => applySel S c :: applySelForest S cs

end

/-- Glob atoms within one gitignore pattern segment. -/
inductive GlobAtom where
  | lit (c : Char)
  | anyOne
  | star
deriving DecidableEq

/-- One slash-separated segment of a gitignore pattern: either the
cross-directory `**` or an ordinary within-segment glob. -/
inductive PatSeg where
  | doubleStar
  | glob (g : List GlobAtom)
deriving DecidableEq

/-- Modelled from the spec: the compiled form of one gitignore pattern, as
built by the external `ignore` crate (not part of this repository): a leading
`!` negates, a trailing `/` restricts the pattern to directories, and the
slash-separated segments follow. -/
structure GPattern where
  negated : Bool
  dirOnly : Bool
  segs : List PatSeg
deriving DecidableEq

/-- Modelled from the spec: compile the characters of one pattern segment;
`*` and `?` are wildcards and an (unclosed) character class `[` makes the
glob malformed, so compilation fails and `is_file_ignored` skips the
pattern. -/
def parseSeg : List Char → Option (List GlobAtom)
  | [] => some []
  | c :: cs =>
    if c = '[' then none
    else (parseSeg cs).map (fun g =>
      (if c = '*' then GlobAtom.star
       else if c = '?' then GlobAtom.anyOne
       else GlobAtom.lit c) :: g)

/-- Split a character list at `/` boundaries. -/
def splitSlash : List Char → List (List Char)
  | [] => [[]]
  | c :: cs =>
    if c = '/' then [] :: splitSlash cs
    else
      match splitSlash cs with
      | [] => [[c]]
      | s :: ss => (c :: s) :: ss

/-- Modelled from the spec: compile one effective gitignore pattern line.
A leading `!` negates; a trailing `/` makes the pattern directory-only; a
`/` at the start or middle anchors the pattern to the workspace root, and an
unanchored pattern behaves as if preceded by `**/` (it matches at any
level); `**` as a whole segment crosses directory boundaries.  Returns
`none` exactly when some segment's glob is malformed. -/
def parsePattern (s : String) : Option GPattern :=
  let cs := s.data
  let negated := decide (cs.head? = some '!')
  let cs₁ := if cs.head? = some '!' then cs.tail else cs
  let dirOnly := decide (cs₁.getLast? = some '/')
  let cs₂ := if cs₁.getLast? = some '/' then cs₁.dropLast else cs₁
  let anchored := decide ('/' ∈ cs₂)
  let cs₃ := if cs₂.head? = some '/' then cs₂.tail else cs₂
  let segs := (splitSlash cs₃).mapM (fun seg =>
    if seg = ['*', '*'] then some PatSeg.doubleStar
    else (parseSeg seg).map PatSeg.glob)
  segs.map (fun gs =>
    ⟨negated, dirOnly, if anchored then gs else PatSeg.doubleStar :: gs⟩)

/-- Modelled from the spec: glob match of one compiled segment against one
path component; `fuel` bounds the recursion and every use supplies more fuel
than atoms plus characters, so it is never exhausted. -/
def segMatchF : Nat → List GlobAtom → List Char → Bool
  | 0, _, _ => false
  | _ + 1, [], [] => true
  | _ + 1, [], _ :: _ => false
  | f + 1, GlobAtom.star :: ps, cs =>
    segMatchF f ps cs ||
      (match cs with
       | [] => false
       | _ :: cs₂ => segMatchF f (GlobAtom.star :: ps) cs₂)
  | _ + 1, GlobAtom.lit _ :: _, [] => false
  | _ + 1, GlobAtom.anyOne :: _, [] => false
  | f + 1, GlobAtom.lit c :: ps, d :: cs => decide (c = d) && segMatchF f ps cs
  | f + 1, GlobAtom.anyOne :: ps, _ :: cs => segMatchF f ps cs

/-- Glob match of one segment with sufficient fuel. -/
def segMatch (ps : List GlobAtom) (cs : List Char) : Bool :=
  segMatchF (ps.length + cs.length + 1) ps cs

/-- Modelled from the spec: match a compiled segment list against a relative
path's components, with `**` consuming any number of components. -/
def segsMatchF : Nat → List PatSeg → List String → Bool
  | 0, _, _ => false
  | _ + 1, [], [] => true
  | _ + 1, [], _ :: _ => false
  | f + 1, PatSeg.doubleStar :: ps, cs =>
    segsMatchF f ps cs ||
      (match cs with
       | [] => false
       | _ :: cs₂ => segsMatchF f (PatSeg.doubleStar :: ps) cs₂)
  | _ + 1, PatSeg.glob _ :: _, [] => false
  | f + 1, PatSeg.glob g :: ps, c :: cs => segMatch g c.data && segsMatchF f ps cs

/-- Segment-list match with sufficient fuel. -/
def segsMatch (ps : List PatSeg) (cs : List String) : Bool :=
  segsMatchF (ps.length + cs.length + 1) ps cs

/-- Modelled from the spec: does a compiled pattern match the relative file
path whose components are `comps`?  Mirrors `matched_path_or_any_parents`
with `is_dir = false`: a directory-only pattern can match only a proper
ancestor directory of the file, any other pattern may match the full path or
any proper ancestor. -/
def patMatchesFile (p : GPattern) (comps : List String) : Bool :=
  (!p.dirOnly && segsMatch p.segs comps) ||
    ((comps.dropLast.inits.filter (fun l => !l.isEmpty)).any
      (fun anc => segsMatch p.segs anc))

/-- is_file_ignored (gitignore_handler.rs lines 65-103): compile each
processed pattern with `parsePattern`, skipping any malformed one (the
`add_line` error branch only logs and continues with the remaining
patterns), then evaluate the relative file path with last-match-wins
semantics (later patterns override earlier ones, `!` re-includes).  The
`workspace_root` argument of the source only re-anchors the relative path
and is omitted here because matching is modelled relative to the root. -/
def is_file_ignored (relative_file_path : String)
    (processed_patterns : List String) : Bool :=
  let pats := processed_patterns.filterMap parsePattern
  let comps := (splitSlash relative_file_path.data).map (fun l => String.mk l)
  pats.foldl (fun acc p => if patMatchesFile p comps then !p.negated else acc)
    false

/-- ASCII whitespace recognizer, modelling `str::trim`'s whitespace test for
the characters that occur in gitignore files. -/
def isWS (c : Char) : Bool := c = ' ' || c = '\t' || c = '\n' || c = '\r'

/-- Trim whitespace from both ends of a character list. -/
def trimChars (cs : List Char) : List Char :=
  ((cs.dropWhile isWS).reverse.dropWhile isWS).reverse

/-- preprocess_gitignore_lines (gitignore_handler.rs lines 47-53): trim each
line, then drop empty lines and comment lines starting with `#`. -/
def preprocess_gitignore_lines (raw_lines : List String) : List String :=
  (raw_lines.map (fun l => String.mk (trimChars l.data))).filter
    (fun l => !l.isEmpty && !(decide (l.data.head? = some '#')))

/-- Abstract I/O error, carrying its message. -/
structure IoError where
  msg : String
deriving DecidableEq

/-- handle_workspace_opened (workspace_event_handler.rs lines 11-67), with
the two I/O collaborators parameterized: `all_files` is the output of
`get_all_workspace_files` (workspace-relative path strings, `.git`
excluded), and `gitignore` is `none` when `check_for_gitignore` finds no
`.gitignore` at the workspace root, otherwise `some` of the
`read_gitignore_patterns` result.  With no `.gitignore` the selected set
stays empty; a read failure propagates the error; otherwise every
non-ignored file is inserted into the selected set. -/
def handle_workspace_opened (all_files : List String)
    (gitignore : Option (Except IoError (List String))) :
    Except IoError (Finset String) :=
  match gitignore with
  | none => Except.ok ∅
  | some (Except.error e) => Except.error e
  | some (Except.ok raw_patterns) =>
    let processed := preprocess_gitignore_lines raw_patterns
    Except.ok (all_files.foldl (fun acc f =>
      if !is_file_ignored f processed then insert f acc else acc) ∅)

/-- Does every path start with `parent` (the all-paths check of the
common-parent loop in `concat_files`)? -/
def allStartWith (paths : List FsPath) (parent : FsPath) : Bool :=
  paths.all (fun p => p.startsWith parent)

/-- Loop of `concat_files` (fs_utils.rs lines 256-276) that walks the
candidate common parent up one level at a time until every path starts with
it, falling back to the empty path when no parent is left.  `fuel` bounds
the number of `parent()` steps and `commonParent` supplies enough for the
loop never to be cut short. -/
def commonUp : Nat → List FsPath → FsPath → FsPath
  | 0, paths, parent => if allStartWith paths parent then parent else ⟨false, []⟩
  | fuel + 1, paths, parent =>
    if allStartWith paths parent then parent
    else
      match parent.parent? with
      | some q => commonUp fuel paths q
      | none => ⟨false, []⟩

/-- Common-parent computation of `concat_files` (fs_utils.rs lines 252-280):
start from the first path's parent (or the empty path) and walk upward until
all paths start with the candidate. -/
def commonParent : List FsPath → FsPath
  | [] => ⟨false, []⟩
  | p :: rest =>
    let start := p.parent?.getD ⟨false, []⟩
    commonUp (start.comps.length + 1) (p :: rest) start

/-- Header path of one file in `concat_files` (fs_utils.rs lines 289-294):
the path relative to the common parent (the path itself when `strip_prefix`
fails), with `./` prepended when the relative path has no root and does not
already start with `./` (at the component level: its first component is not
`.`). -/
def headerPath (common p : FsPath) : String :=
  let rel := (p.stripRoot common).getD p
  (if !rel.absolute && !(decide (rel.comps.head? = some ".")) then "./" else "")
    ++ rel.render

/-- concat_files (fs_utils.rs lines 247-309), with file reading abstracted
into the `contents` map: append, for each path in order, a `\n\n` separator
(except before the first file), the `@@@ <header> @@@` line, a blank line,
and the file's content. -/
def concat_files (paths : List FsPath) (contents : FsPath → String) : String :=
  let common := commonParent paths
  (paths.foldl (fun (st : String × Bool) path =>
      let s₁ := if !st.2 then st.1 ++ "\n\n" else st.1
      (s₁ ++ "@@@ " ++ headerPath common path ++ " @@@\n\n" ++ contents path,
       false))
    ("", true)).1

/-- Join a list of file blocks with the `\n\n` separator between consecutive
blocks and no trailing separator. -/
def joinBlocks : List String → String
  | [] => ""
  | [b] => b
  | b :: b₂ :: bs => b ++ "\n\n" ++ joinBlocks (b₂ :: bs)

deriving instance DecidableEq for Except

/-- Selection state dictated by membership of a path in the selection set
(file_tree.rs lines 168-172). -/
def memSel (S : Finset FsPath) (p : FsPath) : NodeSelectionState :=
  if p ∈ S then NodeSelectionState.Selected else NodeSelectionState.NotSelected

mutual

/-- Simultaneous induction over a tree node and over children lists. -/
theorem nodeForestInd (P : FileTreeNode → Prop) (Q : List FileTreeNode → Prop)
    (hnode : ∀ i nm p t cs e s d, Q cs → P ⟨i, nm, p, t, cs, e, s, d⟩)
    (hnil : Q [])
    (hcons : ∀ c cs, P c → Q cs → Q (c :: cs)) :
    ∀ n, P n
  | ⟨i, nm, p, t, cs, e, s, d⟩ =>
    hnode i nm p t cs e s d (forestInd P Q hnode hnil hcons cs)

/-- Simultaneous induction over children lists. -/
theorem forestInd (P : FileTreeNode → Prop) (Q : List FileTreeNode → Prop)
    (hnode : ∀ i nm p t cs e s d, Q cs → P ⟨i, nm, p, t, cs, e, s, d⟩)
    (hnil : Q [])
    (hcons : ∀ c cs, P c → Q cs → Q (c :: cs)) :
    ∀ l, Q l
  | [] => hnil
  | c :: cs =>
    hcons c cs (nodeForestInd P Q hnode hnil hcons c)
      (forestInd P Q hnode hnil hcons cs)

end

theorem subNodes_eq (n : FileTreeNode) :
    subNodes n = n :: forestNodes n.children := by
  cases n; rfl

theorem forestNodes_cons (c : FileTreeNode) (cs : List FileTreeNode) :
    forestNodes (c :: cs) = subNodes c ++ forestNodes cs := rfl

theorem forestNodes_append (l₁ l₂ : List FileTreeNode) :
    forestNodes (l₁ ++ l₂) = forestNodes l₁ ++ forestNodes l₂ := by
  induction l₁ with
  | nil => rfl
  | cons c cs ih => simp [forestNodes_cons, ih]

theorem self_mem_subNodes (n : FileTreeNode) : n ∈ subNodes n := by
  rw [subNodes_eq]; exact List.mem_cons_self n _

theorem mem_forestNodes_of_mem {c : FileTreeNode} {l : List FileTreeNode}
    (hc : c ∈ l) {x : FileTreeNode} (hx : x ∈ subNodes c) :
    x ∈ forestNodes l := by
  induction l with
  | nil => cases hc
  | cons d ds ih =>
    rw [forestNodes_cons]
    rcases List.mem_cons.mp hc with h | h
    · exact List.mem_append_left _ (h ▸ hx)
    · exact List.mem_append_right _ (ih h)

theorem mem_forestNodes_self {c : FileTreeNode} {l : List FileTreeNode}
    (hc : c ∈ l) : c ∈ forestNodes l :=
  mem_forestNodes_of_mem hc (self_mem_subNodes c)

theorem exists_of_mem_forestNodes {x : FileTreeNode} {l : List FileTreeNode}
    (hx : x ∈ forestNodes l) : ∃ c ∈ l, x ∈ subNodes c := by
  induction l with
  | nil => cases hx
  | cons d ds ih =>
    rw [forestNodes_cons] at hx
    rcases List.mem_append.mp hx with h | h
    · exact ⟨d, List.mem_cons_self d ds, h⟩
    · obtain ⟨c, hc, hxc⟩ := ih h
      exact ⟨c, List.mem_cons_of_mem d hc, hxc⟩

theorem mem_subNodes_trans :
    ∀ n : FileTreeNode, ∀ x ∈ forestNodes n.children, x ∈ subNodes n := by
  intro n x hx
  rw [subNodes_eq]
  exact List.mem_cons_of_mem n hx

theorem recomputeForest_eq_map (l : List FileTreeNode) :
    recomputeForest l = l.map recomputeNode := by
  induction l with
  | nil => rfl
  | cons c cs ih => simp [recomputeForest, ih]

theorem recomputeNode_parts (n : FileTreeNode) :
    (recomputeNode n).id = n.id ∧ (recomputeNode n).name = n.name ∧
    (recomputeNode n).path = n.path ∧ (recomputeNode n).node_type = n.node_type ∧
    (recomputeNode n).children = recomputeForest n.children ∧
    (recomputeNode n).is_expanded = n.is_expanded ∧
    (recomputeNode n).depth = n.depth := by
  cases n; exact ⟨rfl, rfl, rfl, rfl, rfl, rfl, rfl⟩

theorem recomputeNode_file_sel (n : FileTreeNode)
    (h : n.node_type = TreeNodeType.File) :
    (recomputeNode n).selection_state = n.selection_state := by
  cases n with
  | mk i nm p t cs e s d => cases h; rfl

theorem recomputeNode_folder_sel (n : FileTreeNode)
    (h : n.node_type = TreeNodeType.Folder) :
    (recomputeNode n).selection_state =
      (if (recomputeForest n.children).isEmpty then NodeSelectionState.NotSelected
       else if (recomputeForest n.children).all (fun c =>
           decide (c.selection_state = NodeSelectionState.Selected)) then
         NodeSelectionState.Selected
       else if (recomputeForest n.children).any (fun c =>
             decide (c.selection_state = NodeSelectionState.Selected)) ||
           (recomputeForest n.children).any (fun c =>
             decide (c.selection_state = NodeSelectionState.PartiallySelected)) then
         NodeSelectionState.PartiallySelected
       else NodeSelectionState.NotSelected) := by
  cases n with
  | mk i nm p t cs e s d => cases h; rfl

theorem forestNodes_recomputeForest (l : List FileTreeNode) :
    forestNodes (recomputeForest l) = (forestNodes l).map recomputeNode := by
  refine forestInd
    (fun n => subNodes (recomputeNode n) = (subNodes n).map recomputeNode)
    (fun l => forestNodes (recomputeForest l) = (forestNodes l).map recomputeNode)
    ?_ ?_ ?_ l
  · intro i nm p t cs e s d hq
    show subNodes (recomputeNode ⟨i, nm, p, t, cs, e, s, d⟩) = _
    rw [subNodes_eq, subNodes_eq, recomputeNode_parts ⟨i, nm, p, t, cs, e, s, d⟩ |>.2.2.2.2.1]
    simp only [List.map_cons]
    rw [hq]
  · rfl
  · intro c cs hp hq
    rw [forestNodes_cons, recomputeForest, forestNodes_cons]
    simp [hp, hq]

theorem collect_eq (n : FileTreeNode) :
    collect_all_file_paths_recursive n =
      if n.node_type = TreeNodeType.File then [n.path]
      else collectChildPaths n.children := by
  cases n; rfl

theorem collectChildPaths_cons (c : FileTreeNode) (cs : List FileTreeNode) :
    collectChildPaths (c :: cs) =
      collect_all_file_paths_recursive c ++ collectChildPaths cs := by
  rw [collectChildPaths, collect_eq]
  by_cases h : c.node_type = TreeNodeType.File <;> simp [h]

theorem collectChildPaths_append (l₁ l₂ : List FileTreeNode) :
    collectChildPaths (l₁ ++ l₂) = collectChildPaths l₁ ++ collectChildPaths l₂ := by
  induction l₁ with
  | nil => rfl
  | cons c cs ih => simp [collectChildPaths_cons, ih]

theorem collect_subset_of_mem {c : FileTreeNode} {l : List FileTreeNode}
    (hc : c ∈ l) {p : FsPath} (hp : p ∈ collect_all_file_paths_recursive c) :
    p ∈ collectChildPaths l := by
  induction l with
  | nil => cases hc
  | cons d ds ih =>
    rw [collectChildPaths_cons]
    rcases List.mem_cons.mp hc with h | h
    · exact List.mem_append_left _ (h ▸ hp)
    · exact List.mem_append_right _ (ih h)

theorem applySelForest_eq_map (S : Finset FsPath) (l : List FileTreeNode) :
    applySelForest S l = l.map (applySel S) := by
  induction l with
  | nil => rfl
  | cons c cs ih => simp [applySelForest, ih]

theorem applySel_parts (S : Finset FsPath) (n : FileTreeNode) :
    (applySel S n).id = n.id ∧ (applySel S n).name = n.name ∧
    (applySel S n).path = n.path ∧ (applySel S n).node_type = n.node_type ∧
    (applySel S n).children = applySelForest S n.children ∧
    (applySel S n).is_expanded = n.is_expanded ∧
    (applySel S n).depth = n.depth := by
  cases n; exact ⟨rfl, rfl, rfl, rfl, rfl, rfl, rfl⟩

theorem applySel_file_sel (S : Finset FsPath) (n : FileTreeNode)
    (h : n.node_type = TreeNodeType.File) :
    (applySel S n).selection_state = memSel S n.path := by
  cases n with
  | mk i nm p t cs e s d => cases h; rfl

theorem applySel_folder_sel (S : Finset FsPath) (n : FileTreeNode)
    (h : n.node_type = TreeNodeType.Folder) :
    (applySel S n).selection_state = NodeSelectionState.NotSelected := by
  cases n with
  | mk i nm p t cs e s d => cases h; rfl

theorem collect_applySel (S : Finset FsPath) :
    ∀ n : FileTreeNode,
      collect_all_file_paths_recursive (applySel S n) =
        collect_all_file_paths_recursive n := by
  refine nodeForestInd
    (fun n => collect_all_file_paths_recursive (applySel S n) =
      collect_all_file_paths_recursive n)
    (fun l => collectChildPaths (applySelForest S l) = collectChildPaths l)
    ?_ ?_ ?_
  · intro i nm p t cs e s d hq
    rw [collect_eq, collect_eq]
    have hparts := applySel_parts S ⟨i, nm, p, t, cs, e, s, d⟩
    rw [hparts.2.2.2.1, hparts.2.2.1, hparts.2.2.2.2.1]
    by_cases h : TreeNodeType.File = TreeNodeType.File
    · show (if (⟨i, nm, p, t, cs, e, s, d⟩ : FileTreeNode).node_type = TreeNodeType.File
        then _ else _) = _
      by_cases ht : t = TreeNodeType.File <;> simp [ht, hq]
    · exact absurd rfl h
  · rfl
  · intro c cs hp hq
    rw [applySelForest, collectChildPaths_cons, collectChildPaths_cons]
    have hparts := applySel_parts S c
    rw [collect_eq, collect_eq, hparts.2.2.2.1, hparts.2.2.1, hparts.2.2.2.2.1] at hp ⊢
    by_cases ht : c.node_type = TreeNodeType.File
    · simp [ht, hq]
    · simp only [ht, if_false] at hp
      simp [ht, hp, hq]

theorem applySel_applySel (S T : Finset FsPath) :
    ∀ n : FileTreeNode, applySel T (applySel S n) = applySel T n := by
  refine nodeForestInd
    (fun n => applySel T (applySel S n) = applySel T n)
    (fun l => applySelForest T (applySelForest S l) = applySelForest T l)
    ?_ ?_ ?_
  · intro i nm p t cs e s d hq
    show applySel T (applySel S ⟨i, nm, p, t, cs, e, s, d⟩) = _
    rw [applySel, applySel, applySel, hq]
  · rfl
  · intro c cs hp hq
    rw [applySelForest, applySelForest, applySelForest, hp, hq]

theorem forestNodes_applySelForest (S : Finset FsPath) (l : List FileTreeNode) :
    forestNodes (applySelForest S l) = (forestNodes l).map (applySel S) := by
  refine forestInd
    (fun n => subNodes (applySel S n) = (subNodes n).map (applySel S))
    (fun l => forestNodes (applySelForest S l) = (forestNodes l).map (applySel S))
    ?_ ?_ ?_ l
  · intro i nm p t cs e s d hq
    rw [subNodes_eq, subNodes_eq]
    have hparts := applySel_parts S ⟨i, nm, p, t, cs, e, s, d⟩
    rw [hparts.2.2.2.2.1]
    simp only [List.map_cons]
    rw [hq]
  · rfl
  · intro c cs hp hq
    rw [applySelForest, forestNodes_cons, forestNodes_cons]
    simp [hp, hq]

mutual

/-- Structural facts holding of every node the tree builder produces for
selection set `S`: a file node's state is dictated by membership of its path
in `S` and it has no children; a folder node carries the provisional
`NotSelected` state and always has at least one descendant file path. -/
def builtNodeOK (S : Finset FsPath) : FileTreeNode → Bool
  | ⟨_, _, p, t, cs, _, s, _⟩ =>
    match t with
    | TreeNodeType.File => decide (s = memSel S p) && cs.isEmpty
    | TreeNodeType.Folder =>
      decide (s = NodeSelectionState.NotSelected) &&
        !(collectChildPaths cs).isEmpty && builtForestOK S cs

/-- The invariant over a children list. -/
def builtForestOK (S : Finset FsPath) : List FileTreeNode → Bool
  | [] => true
  | c :: cs => builtNodeOK S c && builtForestOK S cs

end

theorem bool_and_elim {a b : Bool} (h : (a && b) = true) : a = true ∧ b = true := by
  constructor <;> simp_all

theorem builtNodeOK_file {S : Finset FsPath} {n : FileTreeNode}
    (h : n.node_type = TreeNodeType.File) :
    builtNodeOK S n =
      (decide (n.selection_state = memSel S n.path) && n.children.isEmpty) := by
  cases n with
  | mk i nm p t cs e s d => cases h; rfl

theorem builtNodeOK_folder {S : Finset FsPath} {n : FileTreeNode}
    (h : n.node_type = TreeNodeType.Folder) :
    builtNodeOK S n =
      (decide (n.selection_state = NodeSelectionState.NotSelected) &&
        !(collectChildPaths n.children).isEmpty && builtForestOK S n.children) := by
  cases n with
  | mk i nm p t cs e s d => cases h; rfl

theorem builtForestOK_cons {S : Finset FsPath} {c : FileTreeNode}
    {cs : List FileTreeNode} :
    builtForestOK S (c :: cs) = (builtNodeOK S c && builtForestOK S cs) := rfl

theorem builtForestOK_append {S : Finset FsPath} (l₁ l₂ : List FileTreeNode) :
    builtForestOK S (l₁ ++ l₂) = (builtForestOK S l₁ && builtForestOK S l₂) := by
  induction l₁ with
  | nil => rfl
  | cons c cs ih => simp [builtForestOK_cons, ih, Bool.and_assoc]

theorem builtNodeOK_of_mem {S : Finset FsPath} :
    ∀ l : List FileTreeNode, builtForestOK S l = true →
      ∀ n ∈ forestNodes l, builtNodeOK S n = true := by
  refine forestInd
    (fun c => builtNodeOK S c = true → ∀ n ∈ subNodes c, builtNodeOK S n = true)
    (fun l => builtForestOK S l = true → ∀ n ∈ forestNodes l, builtNodeOK S n = true)
    ?_ ?_ ?_
  · intro i nm p t cs e s d hq hc n hn
    rw [subNodes_eq] at hn
    rcases List.mem_cons.mp hn with h | h
    · exact h ▸ hc
    · refine hq ?_ n h
      cases t with
      | File =>
        have := (builtNodeOK_file (n := ⟨i, nm, p, TreeNodeType.File, cs, e, s, d⟩)
          (S := S) rfl).symm.trans hc
        have hcs : cs.isEmpty = true := by
          simpa using (bool_and_elim this).2
        rw [List.isEmpty_iff] at hcs
        simp only [hcs] at h
        cases h
      | Folder =>
        have := (builtNodeOK_folder (n := ⟨i, nm, p, TreeNodeType.Folder, cs, e, s, d⟩)
          (S := S) rfl).symm.trans hc
        exact (bool_and_elim this).2
  · intro _ n hn; cases hn
  · intro c cs hp hq hl n hn
    rw [builtForestOK_cons] at hl
    have hl := bool_and_elim hl
    rw [forestNodes_cons] at hn
    rcases List.mem_append.mp hn with h | h
    · exact hp hl.1 n h
    · exact hq hl.2 n h

theorem splitAtFolder_eq_some (name : String) :
    ∀ l pre c post,
      splitAtFolder name l = some (pre, c, post) →
      l = pre ++ c :: post ∧ c.name = name ∧ c.node_type = TreeNodeType.Folder := by
  intro l
  induction l with
  | nil => intro pre c post h; cases h
  | cons d ds ih =>
    intro pre c post h
    rw [splitAtFolder] at h
    split at h
    · rename_i hd
      cases h
      exact ⟨rfl, hd.1, hd.2⟩
    · rename_i hd
      cases hsp : splitAtFolder name ds with
      | none => rw [hsp] at h; cases h
      | some x =>
        rw [hsp] at h
        obtain ⟨x₁, x₂, x₃⟩ := x
        cases h
        obtain ⟨he, hn, ht⟩ := ih x₁ x₂ x₃ hsp
        exact ⟨by rw [he]; rfl, hn, ht⟩

theorem splitAtFolder_eq_none (name : String) :
    ∀ l, splitAtFolder name l = none →
      ∀ c ∈ l, ¬(c.name = name ∧ c.node_type = TreeNodeType.Folder) := by
  intro l
  induction l with
  | nil => intro _ c hc; cases hc
  | cons d ds ih =>
    intro h c hc
    rw [splitAtFolder] at h
    split at h
    · cases h
    · rename_i hd
      rcases List.mem_cons.mp hc with hcd | hcd
      · exact hcd ▸ hd
      · cases hsp : splitAtFolder name ds with
        | none => exact ih hsp c hcd
        | some x => rw [hsp] at h; cases h

theorem path_mem_collectChildPaths {n : FileTreeNode} {l : List FileTreeNode}
    (hn : n ∈ l) (hf : n.node_type = TreeNodeType.File) :
    n.path ∈ collectChildPaths l :=
  collect_subset_of_mem hn
    (by rw [collect_eq, if_pos hf]; exact List.mem_singleton.mpr rfl)

theorem mem_collect_insertComps (root fp : FsPath) (sel : NodeSelectionState) :
    ∀ comps acc depth children counter, comps ≠ [] →
      fp ∈ collectChildPaths
        (insertComps root fp sel comps acc depth children counter).1
  | [], _, _, _, _, h => absurd rfl h
  | [name], acc, depth, children, counter, _ => by
    rw [insertComps]
    split
    · rename_i hany
      obtain ⟨n, hn, hdec⟩ := List.any_eq_true.mp hany
      obtain ⟨hpath, htype⟩ := of_decide_eq_true hdec
      exact hpath ▸ path_mem_collectChildPaths hn htype
    · rw [collectChildPaths_append, collectChildPaths_cons]
      simp [collect_eq]
  | name :: comps₂ :: comps, acc, depth, children, counter, _ => by
    have ihmem := mem_collect_insertComps root fp sel (comps₂ :: comps)
      (acc ++ [name]) (depth + 1)
    rw [insertComps]
    cases hsp : splitAtFolder name children with
    | some x =>
      obtain ⟨pre, c, post⟩ := x
      simp only
      rw [collectChildPaths_append, collectChildPaths_append,
        collectChildPaths_cons]
      refine List.mem_append_left _ (List.mem_append_right _
        (List.mem_append_left _ ?_))
      have hc := splitAtFolder_eq_some name children pre c post hsp
      obtain ⟨ci, cnm, cp, ct, ccs, ce, cssel, cd⟩ := c
      cases hc.2.2
      rw [collect_eq]
      simpa using ihmem ccs counter (by simp)
    | none =>
      simp only
      rw [collectChildPaths_append, collectChildPaths_cons]
      refine List.mem_append_right _ (List.mem_append_left _ ?_)
      rw [collect_eq]
      simpa using ihmem [] (counter + 1) (by simp)

theorem withChildren_parts (c : FileTreeNode) (x : List FileTreeNode) :
    ({ c with children := x } : FileTreeNode).id = c.id ∧
    ({ c with children := x } : FileTreeNode).name = c.name ∧
    ({ c with children := x } : FileTreeNode).path = c.path ∧
    ({ c with children := x } : FileTreeNode).node_type = c.node_type ∧
    ({ c with children := x } : FileTreeNode).children = x ∧
    ({ c with children := x } : FileTreeNode).is_expanded = c.is_expanded ∧
    ({ c with children := x } : FileTreeNode).selection_state = c.selection_state ∧
    ({ c with children := x } : FileTreeNode).depth = c.depth := by
  cases c; exact ⟨rfl, rfl, rfl, rfl, rfl, rfl, rfl, rfl⟩

theorem builtForestOK_insertComps (S : Finset FsPath) (root fp : FsPath) :
    ∀ comps acc depth children counter,
      builtForestOK S children = true →
      builtForestOK S
        (insertComps root fp (memSel S fp) comps acc depth children counter).1
        = true
  | [], _, _, children, counter, h => by rw [insertComps]; exact h
  | [name], acc, depth, children, counter, h => by
    rw [insertComps]
    split
    · exact h
    · rw [builtForestOK_append, h]
      simp [builtForestOK_cons, builtForestOK, builtNodeOK]
  | name :: comps₂ :: comps, acc, depth, children, counter, h => by
    have ih := builtForestOK_insertComps S root fp (comps₂ :: comps)
      (acc ++ [name]) (depth + 1)
    rw [insertComps]
    cases hsp : splitAtFolder name children with
    | some x =>
      obtain ⟨pre, c, post⟩ := x
      simp only
      have hc := splitAtFolder_eq_some name children pre c post hsp
      rw [hc.1, builtForestOK_append, builtForestOK_cons] at h
      obtain ⟨hpre, hrest⟩ := bool_and_elim h
      obtain ⟨hcok, hpost⟩ := bool_and_elim hrest
      rw [builtNodeOK_folder hc.2.2] at hcok
      obtain ⟨hsels, hccs⟩ := bool_and_elim hcok
      obtain ⟨hsel, _⟩ := bool_and_elim hsels
      have hw := withChildren_parts c (insertComps root fp (memSel S fp)
        (comps₂ :: comps) (acc ++ [name]) (depth + 1) c.children counter).1
      have hmem := mem_collect_insertComps root fp (memSel S fp) (comps₂ :: comps)
        (acc ++ [name]) (depth + 1) c.children counter (by simp)
      rw [builtForestOK_append, builtForestOK_append, builtForestOK_cons,
        hpre, hpost, builtNodeOK_folder (hw.2.2.2.1.trans hc.2.2),
        hw.2.2.2.2.1, hw.2.2.2.2.2.2.1, ih c.children counter hccs,
        of_decide_eq_true hsel]
      simp [List.ne_nil_of_mem hmem, builtForestOK]
    | none =>
      simp only
      rw [builtForestOK_append, h, builtForestOK_cons]
      have hmem := mem_collect_insertComps root fp (memSel S fp) (comps₂ :: comps)
        (acc ++ [name]) (depth + 1) [] (counter + 1) (by simp)
      rw [builtNodeOK_folder rfl]
      simp only
      rw [ih [] (counter + 1) rfl]
      simp [List.ne_nil_of_mem hmem, builtForestOK]

theorem builtForestOK_build (files : List FileInfo) (S : Finset FsPath)
    (root : FsPath) :
    builtForestOK S (build_tree_from_file_info files S root) = true := by
  rw [build_tree_from_file_info]
  split
  · rfl
  · have main : ∀ (l : List FileInfo) (st : List FileTreeNode × Nat),
        builtForestOK S st.1 = true →
        builtForestOK S ((l.foldl (fun st f =>
          let sel := if f.path ∈ S then NodeSelectionState.Selected
                     else NodeSelectionState.NotSelected
          insertComps root f.path sel (relComps root f) [] 0 st.1 st.2) st).1)
          = true := by
      intro l
      induction l with
      | nil => intro st h; exact h
      | cons f fs ih =>
        intro st h
        rw [List.foldl_cons]
        exact ih _ (builtForestOK_insertComps S root f.path
          (relComps root f) [] 0 st.1 st.2 h)
    exact main (sortByPath files) ([], 0) rfl

theorem agg_spec (l : List FileTreeNode) (sel : NodeSelectionState)
    (hsel : sel =
      (if l.isEmpty then NodeSelectionState.NotSelected
       else if l.all (fun c =>
           decide (c.selection_state = NodeSelectionState.Selected)) then
         NodeSelectionState.Selected
       else if (l.any (fun c =>
             decide (c.selection_state = NodeSelectionState.Selected)) ||
           l.any (fun c =>
             decide (c.selection_state = NodeSelectionState.PartiallySelected))) then
         NodeSelectionState.PartiallySelected
       else NodeSelectionState.NotSelected)) :
    (sel = NodeSelectionState.Selected ↔
      l ≠ [] ∧ ∀ c ∈ l, c.selection_state = NodeSelectionState.Selected) ∧
    (sel = NodeSelectionState.NotSelected ↔
      ∀ c ∈ l, c.selection_state ≠ NodeSelectionState.Selected ∧
        c.selection_state ≠ NodeSelectionState.PartiallySelected) ∧
    (sel = NodeSelectionState.PartiallySelected ↔
      ¬(l ≠ [] ∧ ∀ c ∈ l, c.selection_state = NodeSelectionState.Selected) ∧
      ¬(∀ c ∈ l, c.selection_state ≠ NodeSelectionState.Selected ∧
        c.selection_state ≠ NodeSelectionState.PartiallySelected)) := by
  subst hsel
  by_cases hemp : l = []
  · subst hemp; simp
  · rw [if_neg (by simpa using hemp)]
    obtain ⟨c₀, hc₀⟩ := List.exists_mem_of_ne_nil l hemp
    by_cases hall : l.all (fun c =>
        decide (c.selection_state = NodeSelectionState.Selected)) = true
    · rw [if_pos hall]
      rw [List.all_eq_true] at hall
      have hprop : ∀ c ∈ l, c.selection_state = NodeSelectionState.Selected :=
        fun c hc => of_decide_eq_true (hall c hc)
      refine ⟨iff_of_true rfl ⟨hemp, hprop⟩,
        iff_of_false (by decide) (fun h => (h c₀ hc₀).1 (hprop c₀ hc₀)),
        iff_of_false (by decide) (fun h => h.1 ⟨hemp, hprop⟩)⟩
    · rw [if_neg hall]
      have hex : ∃ c ∈ l, c.selection_state ≠ NodeSelectionState.Selected := by
        by_contra hcon
        push_neg at hcon
        exact hall (List.all_eq_true.mpr
          (fun c hc => decide_eq_true (hcon c hc)))
      obtain ⟨c₁, hc₁, hc₁n⟩ := hex
      by_cases hany : (l.any (fun c =>
            decide (c.selection_state = NodeSelectionState.Selected)) ||
          l.any (fun c =>
            decide (c.selection_state = NodeSelectionState.PartiallySelected))) = true
      · rw [if_pos hany]
        have hwitness : ∃ c ∈ l, c.selection_state = NodeSelectionState.Selected ∨
            c.selection_state = NodeSelectionState.PartiallySelected := by
          rcases Bool.or_eq_true _ _ ▸ hany with h | h
          · obtain ⟨c, hc, hcs⟩ := List.any_eq_true.mp h
            exact ⟨c, hc, Or.inl (of_decide_eq_true hcs)⟩
          · obtain ⟨c, hc, hcs⟩ := List.any_eq_true.mp h
            exact ⟨c, hc, Or.inr (of_decide_eq_true hcs)⟩
        obtain ⟨c₂, hc₂, hc₂or⟩ := hwitness
        have hnot2 : ¬(∀ c ∈ l, c.selection_state ≠ NodeSelectionState.Selected ∧
            c.selection_state ≠ NodeSelectionState.PartiallySelected) := by
          intro h
          rcases hc₂or with h₂ | h₂
          · exact (h c₂ hc₂).1 h₂
          · exact (h c₂ hc₂).2 h₂
        refine ⟨iff_of_false (by decide) (fun h => hc₁n (h.2 c₁ hc₁)),
          iff_of_false (by decide) hnot2,
          iff_of_true rfl ⟨fun h => hc₁n (h.2 c₁ hc₁), hnot2⟩⟩
      · rw [if_neg hany]
        have hsplit := Bool.or_eq_true _ _ ▸ hany
        have hnosel : ∀ c ∈ l, c.selection_state ≠ NodeSelectionState.Selected := by
          intro c hc h
          exact hsplit (Or.inl (List.any_eq_true.mpr ⟨c, hc, decide_eq_true h⟩))
        have hnopart : ∀ c ∈ l,
            c.selection_state ≠ NodeSelectionState.PartiallySelected := by
          intro c hc h
          exact hsplit (Or.inr (List.any_eq_true.mpr ⟨c, hc, decide_eq_true h⟩))
        refine ⟨iff_of_false (by decide) (fun h => hc₁n (h.2 c₁ hc₁)),
          iff_of_true rfl (fun c hc => ⟨hnosel c hc, hnopart c hc⟩),
          iff_of_false (by decide)
            (fun h => h.2 (fun c hc => ⟨hnosel c hc, hnopart c hc⟩))⟩

/-- Selection-state invariant of one displayed node, as the spec states it: a
file is `Selected` iff its absolute path is in the selection set (else
`NotSelected`, never `PartiallySelected`); a folder is `Selected` iff it has
at least one child and all children are `Selected`, `NotSelected` iff no
child is `Selected` or `PartiallySelected` (including the childless case),
and `PartiallySelected` otherwise. -/
def selInvariant (S : Finset FsPath) (n : FileTreeNode) : Prop :=
  (n.node_type = TreeNodeType.File →
    (n.selection_state = NodeSelectionState.Selected ↔ n.path ∈ S) ∧
    (n.path ∉ S → n.selection_state = NodeSelectionState.NotSelected) ∧
    n.selection_state ≠ NodeSelectionState.PartiallySelected) ∧
  (n.node_type = TreeNodeType.Folder →
    (n.selection_state = NodeSelectionState.Selected ↔
      n.children ≠ [] ∧ ∀ c ∈ n.children,
        c.selection_state = NodeSelectionState.Selected) ∧
    (n.selection_state = NodeSelectionState.NotSelected ↔
      ∀ c ∈ n.children, c.selection_state ≠ NodeSelectionState.Selected ∧
        c.selection_state ≠ NodeSelectionState.PartiallySelected) ∧
    (n.selection_state = NodeSelectionState.PartiallySelected ↔
      ¬(n.children ≠ [] ∧ ∀ c ∈ n.children,
        c.selection_state = NodeSelectionState.Selected) ∧
      ¬(∀ c ∈ n.children, c.selection_state ≠ NodeSelectionState.Selected ∧
        c.selection_state ≠ NodeSelectionState.PartiallySelected)))

/-- Claim C1: after every tree build followed by the selection recompute,
every node in the resulting forest satisfies the selection-state invariant:
a `File` node's `selection_state` is `Selected` iff its absolute path is in
the current selection set and `NotSelected` otherwise (never
`PartiallySelected`), and a `Folder` node is `Selected` iff it has at least
one child and all its immediate children are `Selected`, `NotSelected` iff no
child is `Selected` or `PartiallySelected` (including the childless case),
and `PartiallySelected` otherwise. -/
theorem tree_selection_invariant (files : List FileInfo) (S : Finset FsPath)
    (root : FsPath) (n : FileTreeNode)
    (hn : n ∈ forestNodes (recomputeForest
      (build_tree_from_file_info files S root))) :
    selInvariant S n := by
  rw [forestNodes_recomputeForest] at hn
  obtain ⟨k, hk, rfl⟩ := List.mem_map.mp hn
  have hkOK := builtNodeOK_of_mem _ (builtForestOK_build files S root) k hk
  have hparts := recomputeNode_parts k
  constructor
  · intro hfile
    have hkf : k.node_type = TreeNodeType.File := by
      rw [hparts.2.2.2.1] at hfile; exact hfile
    rw [builtNodeOK_file hkf] at hkOK
    have hksel : k.selection_state = memSel S k.path :=
      of_decide_eq_true (bool_and_elim hkOK).1
    rw [recomputeNode_file_sel k hkf, hparts.2.2.1, hksel]
    by_cases hp : k.path ∈ S
    · rw [memSel, if_pos hp]
      exact ⟨iff_of_true rfl hp, fun h => absurd hp h, by decide⟩
    · rw [memSel, if_neg hp]
      exact ⟨iff_of_false (by decide) hp, fun _ => rfl, by decide⟩
  · intro hfolder
    have hkf : k.node_type = TreeNodeType.Folder := by
      rw [hparts.2.2.2.1] at hfolder; exact hfolder
    have := agg_spec (recomputeForest k.children)
      ((recomputeNode k).selection_state) (recomputeNode_folder_sel k hkf)
    rw [← hparts.2.2.2.2.1] at this
    exact this

/-- Workspace root used by the concrete examples. -/
def exRoot : FsPath := ⟨true, ["ws"]⟩

/-- Absolute path of the first example file. -/
def exPathA : FsPath := ⟨true, ["ws", "src", "a.rs"]⟩

/-- Absolute path of the second example file. -/
def exPathB : FsPath := ⟨true, ["ws", "src", "b.rs"]⟩

/-- First example crawl record. -/
def exFileA : FileInfo := ⟨"a.rs", exPathA, 10, 2⟩

/-- Second example crawl record. -/
def exFileB : FileInfo := ⟨"b.rs", exPathB, 20, 5⟩

/-- Example selection set: only `a.rs` is selected. -/
def exSel : Finset FsPath := {exPathA}

/-- Displayed node of the selected example file. -/
def exNodeA : FileTreeNode :=
  ⟨1, "a.rs", exPathA, TreeNodeType.File, [], false,
    NodeSelectionState.Selected, 1⟩

/-- Displayed node of the unselected example file. -/
def exNodeB : FileTreeNode :=
  ⟨2, "b.rs", exPathB, TreeNodeType.File, [], false,
    NodeSelectionState.NotSelected, 1⟩

/-- The example `src` folder after the recompute: one selected and one
unselected child make it `PartiallySelected`. -/
def exSrcRec : FileTreeNode :=
  ⟨0, "src", ⟨true, ["ws", "src"]⟩, TreeNodeType.Folder, [exNodeA, exNodeB],
    true, NodeSelectionState.PartiallySelected, 0⟩

theorem tree_selection_invariant_witness :
    exSrcRec ∈ forestNodes (recomputeForest
      (build_tree_from_file_info [exFileA, exFileB] exSel exRoot)) ∧
    selInvariant exSel exSrcRec := by
  have hmem : exSrcRec ∈ forestNodes (recomputeForest
      (build_tree_from_file_info [exFileA, exFileB] exSel exRoot)) := by
    have h : forestNodes (recomputeForest
        (build_tree_from_file_info [exFileA, exFileB] exSel exRoot))
        = [exSrcRec, exNodeA, exNodeB] := rfl
    rw [h]
    exact List.mem_cons_self _ _
  exact ⟨hmem,
    tree_selection_invariant [exFileA, exFileB] exSel exRoot exSrcRec hmem⟩

/-- Claim C10: calling the descendant-path collection operation on a `File`
node is total and returns exactly the one-element list containing that
file's own absolute path. -/
theorem collect_on_file_node (n : FileTreeNode)
    (h : n.node_type = TreeNodeType.File) :
    collect_all_file_paths_recursive n = [n.path] := by
  rw [collect_eq, if_pos h]

theorem collect_on_file_node_witness :
    exNodeA.node_type = TreeNodeType.File ∧
    collect_all_file_paths_recursive exNodeA = [exNodeA.path] :=
  ⟨rfl, collect_on_file_node exNodeA rfl⟩

/-- Claim C4: if no `.gitignore` file exists at the workspace root, the
workspace-open seeding returns an empty initial selection set — no file from
the crawl is pre-selected, regardless of what files are present. -/
theorem no_gitignore_empty_selection (all_files : List String) :
    handle_workspace_opened all_files none = Except.ok ∅ := rfl

theorem no_gitignore_empty_selection_witness :
    handle_workspace_opened ["a.txt", "b.txt"] none = Except.ok ∅ :=
  no_gitignore_empty_selection ["a.txt", "b.txt"]

/-- Claim C7: if a `.gitignore` exists at the workspace root but reading it
fails, the whole workspace-open seeding fails by propagating the read error
to the caller; it returns neither an empty nor any other selection set. -/
theorem gitignore_read_error_propagates (all_files : List String)
    (e : IoError) :
    handle_workspace_opened all_files (some (Except.error e)) =
      Except.error e ∧
    ∀ s : Finset String,
      handle_workspace_opened all_files (some (Except.error e)) ≠
        Except.ok s :=
  ⟨rfl, fun _ h => Except.noConfusion h⟩

theorem gitignore_read_error_propagates_witness :
    handle_workspace_opened ["a.txt"] (some (Except.error ⟨"permission denied"⟩)) =
      Except.error ⟨"permission denied"⟩ :=
  (gitignore_read_error_propagates ["a.txt"] ⟨"permission denied"⟩).1

theorem foldl_insert_mem (L : List FsPath) :
    ∀ (S : Finset FsPath) (x : FsPath),
      x ∈ L.foldl (fun s p => insert p s) S ↔ x ∈ S ∨ x ∈ L := by
  induction L with
  | nil => simp
  | cons p ps ih =>
    intro S x
    rw [List.foldl_cons, ih]
    simp only [Finset.mem_insert, List.mem_cons]
    tauto

theorem foldl_erase_mem (L : List FsPath) :
    ∀ (S : Finset FsPath) (x : FsPath),
      x ∈ L.foldl (fun s p => s.erase p) S ↔ x ∈ S ∧ x ∉ L := by
  induction L with
  | nil => simp
  | cons p ps ih =>
    intro S x
    rw [List.foldl_cons, ih]
    simp only [Finset.mem_erase, List.mem_cons]
    tauto

theorem toggleNode_true_mem (n : FileTreeNode) (S : Finset FsPath)
    (x : FsPath) :
    x ∈ toggleNode n true S ↔
      x ∈ S ∨ x ∈ collect_all_file_paths_recursive n := by
  rw [toggleNode]
  cases ht : n.node_type with
  | File =>
    rw [collect_eq, if_pos ht]
    simp [Finset.mem_insert, Or.comm]
  | Folder =>
    have hfn : (fun (s : Finset FsPath) p =>
        if (true : Bool) then insert p s else s.erase p) =
        fun s p => insert p s := rfl
    rw [hfn, foldl_insert_mem]

theorem toggleNode_false_mem (n : FileTreeNode) (S : Finset FsPath)
    (x : FsPath) :
    x ∈ toggleNode n false S ↔
      x ∈ S ∧ x ∉ collect_all_file_paths_recursive n := by
  rw [toggleNode]
  cases ht : n.node_type with
  | File =>
    rw [collect_eq, if_pos ht]
    simp [Finset.mem_erase, And.comm]
  | Folder =>
    have hfn : (fun (s : Finset FsPath) p =>
        if (false : Bool) then insert p s else s.erase p) =
        fun s p => s.erase p := rfl
    rw [hfn, foldl_erase_mem]

/-- Claim C5 (amended): for every node in a built forest and every starting
selection set that contains none of the node's descendant file paths,
toggling the node on (checked) and then off (unchecked) returns the
selection set to its value before the two toggles, and rebuilding the tree
from the unchanged file list and that set yields a forest equal in structure
and selection states to the forest before the toggles.  (The disjointness
condition is forced: when a descendant path is already selected, the on/off
pair removes it — see the counterexample.) -/
theorem toggle_roundtrip (files : List FileInfo) (S : Finset FsPath)
    (root : FsPath) (n : FileTreeNode)
    (hn : n ∈ forestNodes (build_tree_from_file_info files S root))
    (hdisj : ∀ p ∈ collect_all_file_paths_recursive n, p ∉ S) :
    toggleNode n false (toggleNode n true S) = S ∧
    recomputeForest (build_tree_from_file_info files
      (toggleNode n false (toggleNode n true S)) root) =
      recomputeForest (build_tree_from_file_info files S root) := by
  have hset : toggleNode n false (toggleNode n true S) = S := by
    ext x
    rw [toggleNode_false_mem, toggleNode_true_mem]
    constructor
    · rintro ⟨hx | hx, hnx⟩
      · exact hx
      · exact absurd hx hnx
    · intro hx
      exact ⟨Or.inl hx, fun hc => hdisj x hc hx⟩
  exact ⟨hset, by rw [hset]⟩

/-- Absolute path of the top-level example file. -/
def exPathTop : FsPath := ⟨true, ["ws", "top.rs"]⟩

/-- Top-level example crawl record. -/
def exFileTop : FileInfo := ⟨"top.rs", exPathTop, 1, 1⟩

/-- Selection set already containing the top-level example file. -/
def exSelTop : Finset FsPath := {exPathTop}

/-- Built node of the top-level example file when it is selected. -/
def exNodeTop : FileTreeNode :=
  ⟨0, "top.rs", exPathTop, TreeNodeType.File, [], false,
    NodeSelectionState.Selected, 0⟩

/-- Built node of the top-level example file when nothing is selected. -/
def exNodeTopUnsel : FileTreeNode :=
  ⟨0, "top.rs", exPathTop, TreeNodeType.File, [], false,
    NodeSelectionState.NotSelected, 0⟩

/-- Claim C5 counterexample: the round-trip fails as universally stated.
For the built file node whose path is already in the selection set, toggling
on (a no-op insert) and then off (a removal) does not return the selection
set to its prior value — the file ends up deselected. -/
theorem toggle_roundtrip_counterexample :
    exNodeTop ∈ forestNodes
      (build_tree_from_file_info [exFileTop] exSelTop exRoot) ∧
    toggleNode exNodeTop false (toggleNode exNodeTop true exSelTop) ≠
      exSelTop := by
  constructor
  · have h : forestNodes
        (build_tree_from_file_info [exFileTop] exSelTop exRoot)
        = [exNodeTop] := rfl
    rw [h]
    exact List.mem_cons_self _ _
  · decide

theorem toggle_roundtrip_witness :
    exNodeTopUnsel ∈ forestNodes
      (build_tree_from_file_info [exFileTop] ∅ exRoot) ∧
    (∀ p ∈ collect_all_file_paths_recursive exNodeTopUnsel,
      p ∉ (∅ : Finset FsPath)) ∧
    (toggleNode exNodeTopUnsel false (toggleNode exNodeTopUnsel true ∅) = ∅ ∧
     recomputeForest (build_tree_from_file_info [exFileTop]
       (toggleNode exNodeTopUnsel false (toggleNode exNodeTopUnsel true ∅))
       exRoot) =
       recomputeForest (build_tree_from_file_info [exFileTop] ∅ exRoot)) := by
  have hmem : exNodeTopUnsel ∈ forestNodes
      (build_tree_from_file_info [exFileTop] ∅ exRoot) := by
    have h : forestNodes (build_tree_from_file_info [exFileTop] ∅ exRoot)
        = [exNodeTopUnsel] := rfl
    rw [h]
    exact List.mem_cons_self _ _
  have hdisj : ∀ p ∈ collect_all_file_paths_recursive exNodeTopUnsel,
      p ∉ (∅ : Finset FsPath) := by decide
  exact ⟨hmem, hdisj,
    toggle_roundtrip [exFileTop] ∅ exRoot exNodeTopUnsel hmem hdisj⟩

theorem applySelForest_append (S : Finset FsPath) (l₁ l₂ : List FileTreeNode) :
    applySelForest S (l₁ ++ l₂) = applySelForest S l₁ ++ applySelForest S l₂ := by
  rw [applySelForest_eq_map, applySelForest_eq_map, applySelForest_eq_map,
    List.map_append]

theorem applySel_withChildren (S : Finset FsPath) (c : FileTreeNode)
    (x : List FileTreeNode) :
    applySel S { c with children := x } =
      { applySel S c with children := applySelForest S x } := by
  cases c; rfl

theorem any_applySelForest (S : Finset FsPath) (children : List FileTreeNode)
    (fp : FsPath) :
    ((applySelForest S children).any (fun n =>
        decide (n.path = fp ∧ n.node_type = TreeNodeType.File))) =
      (children.any (fun n =>
        decide (n.path = fp ∧ n.node_type = TreeNodeType.File))) := by
  rw [applySelForest_eq_map, List.any_map]
  congr 1
  funext c
  have hp := applySel_parts S c
  simp [Function.comp, hp.2.2.1, hp.2.2.2.1]

theorem splitAtFolder_applySelForest (S : Finset FsPath) (name : String) :
    ∀ children : List FileTreeNode,
      splitAtFolder name (applySelForest S children) =
        (splitAtFolder name children).map (fun x =>
          (applySelForest S x.1, applySel S x.2.1, applySelForest S x.2.2)) := by
  intro children
  induction children with
  | nil => rfl
  | cons c cs ih =>
    rw [applySelForest, splitAtFolder, splitAtFolder]
    have hp := applySel_parts S c
    by_cases hc : c.name = name ∧ c.node_type = TreeNodeType.Folder
    · rw [if_pos (by rw [hp.2.1, hp.2.2.2.1]; exact hc), if_pos hc]
      rfl
    · rw [if_neg (by rw [hp.2.1, hp.2.2.2.1]; exact hc), if_neg hc, ih]
      cases splitAtFolder name cs with
      | none => rfl
      | some x => rfl

theorem insertComps_applySel (S : Finset FsPath) (root fp : FsPath)
    (sel₀ : NodeSelectionState) :
    ∀ comps acc depth children counter,
      insertComps root fp (memSel S fp) comps acc depth
        (applySelForest S children) counter =
      (applySelForest S
          (insertComps root fp sel₀ comps acc depth children counter).1,
        (insertComps root fp sel₀ comps acc depth children counter).2)
  | [], acc, depth, children, counter => by rw [insertComps, insertComps]
  | [name], acc, depth, children, counter => by
    rw [insertComps, insertComps, any_applySelForest]
    split
    · rfl
    · rw [applySelForest_append]
      rfl
  | name :: comps₂ :: comps, acc, depth, children, counter => by
    have ih := insertComps_applySel S root fp sel₀ (comps₂ :: comps)
      (acc ++ [name]) (depth + 1)
    rw [insertComps, insertComps, splitAtFolder_applySelForest]
    cases hsp : splitAtFolder name children with
    | none =>
      simp only [Option.map_none']
      have h₀ : applySelForest S [] = [] := rfl
      rw [← h₀, ih [] (counter + 1), applySelForest_append]
      rfl
    | some x =>
      obtain ⟨pre, c, post⟩ := x
      simp only [Option.map_some']
      have hch : (applySel S c).children = applySelForest S c.children :=
        (applySel_parts S c).2.2.2.2.1
      rw [hch, ih c.children counter, applySelForest_append,
        applySelForest_append, applySelForest, applySelForest,
        applySel_withChildren]

theorem build_applySel (files : List FileInfo) (S S₀ : Finset FsPath)
    (root : FsPath) :
    build_tree_from_file_info files S root =
      applySelForest S (build_tree_from_file_info files S₀ root) := by
  rw [build_tree_from_file_info, build_tree_from_file_info]
  split
  · rfl
  · have main : ∀ (l : List FileInfo) (ch : List FileTreeNode) (k : Nat),
        (l.foldl (fun st f =>
          let sel := if f.path ∈ S then NodeSelectionState.Selected
                     else NodeSelectionState.NotSelected
          insertComps root f.path sel (relComps root f) [] 0 st.1 st.2)
          (applySelForest S ch, k)) =
        (applySelForest S ((l.foldl (fun st f =>
            let sel := if f.path ∈ S₀ then NodeSelectionState.Selected
                       else NodeSelectionState.NotSelected
            insertComps root f.path sel (relComps root f) [] 0 st.1 st.2)
            (ch, k)).1),
          (l.foldl (fun st f =>
            let sel := if f.path ∈ S₀ then NodeSelectionState.Selected
                       else NodeSelectionState.NotSelected
            insertComps root f.path sel (relComps root f) [] 0 st.1 st.2)
            (ch, k)).2) := by
      intro l
      induction l with
      | nil => intro ch k; rfl
      | cons f fs ih =>
        intro ch k
        rw [List.foldl_cons, List.foldl_cons]
        show (fs.foldl _ (insertComps root f.path (memSel S f.path)
          (relComps root f) [] 0 (applySelForest S ch) k)) = _
        rw [insertComps_applySel S root f.path (memSel S₀ f.path)
          (relComps root f) [] 0 ch k]
        exact ih _ _
    have h₀ : applySelForest S ([] : List FileTreeNode) = [] := rfl
    calc ((sortByPath files).foldl _ (([] : List FileTreeNode), 0)).1
        = ((sortByPath files).foldl _ ((applySelForest S []), 0)).1 := by rw [h₀]
      _ = _ := by rw [main (sortByPath files) [] 0]

theorem recompute_selected (S' : Finset FsPath) :
    ∀ n : FileTreeNode, builtNodeOK S' n = true →
      (∀ p ∈ collect_all_file_paths_recursive n, p ∈ S') →
      (recomputeNode n).selection_state = NodeSelectionState.Selected ∧
      (∀ m ∈ subNodes (recomputeNode n), m.node_type = TreeNodeType.File →
        m.selection_state = NodeSelectionState.Selected) := by
  refine nodeForestInd
    (fun n => builtNodeOK S' n = true →
      (∀ p ∈ collect_all_file_paths_recursive n, p ∈ S') →
      (recomputeNode n).selection_state = NodeSelectionState.Selected ∧
      (∀ m ∈ subNodes (recomputeNode n), m.node_type = TreeNodeType.File →
        m.selection_state = NodeSelectionState.Selected))
    (fun l => builtForestOK S' l = true →
      (∀ p ∈ collectChildPaths l, p ∈ S') →
      (∀ c ∈ recomputeForest l,
        c.selection_state = NodeSelectionState.Selected) ∧
      (∀ m ∈ forestNodes (recomputeForest l),
        m.node_type = TreeNodeType.File →
        m.selection_state = NodeSelectionState.Selected))
    ?_ ?_ ?_
  · intro i nm p t cs e s d hq hok hsub
    set nd : FileTreeNode := ⟨i, nm, p, t, cs, e, s, d⟩ with hnd
    cases t with
    | File =>
      have hfile : nd.node_type = TreeNodeType.File := rfl
      rw [builtNodeOK_file hfile] at hok
      obtain ⟨hsel, hemp⟩ := bool_and_elim hok
      have hcs : cs = [] := by simpa using hemp
      have hp : p ∈ S' := by
        refine hsub p ?_
        rw [collect_eq, if_pos hfile]
        exact List.mem_singleton.mpr rfl
      have hsels : s = NodeSelectionState.Selected := by
        have h₂ : s = memSel S' p := of_decide_eq_true hsel
        rw [h₂, memSel, if_pos hp]
      subst hcs
      subst hsels
      constructor
      · rfl
      · intro m hm _
        have : subNodes (recomputeNode nd) = [recomputeNode nd] := rfl
        rw [this] at hm
        have hms := List.mem_singleton.mp hm
        subst hms
        rfl
    | Folder =>
      have hfolder : nd.node_type = TreeNodeType.Folder := rfl
      rw [builtNodeOK_folder hfolder] at hok
      obtain ⟨hsels, hcsok⟩ := bool_and_elim hok
      obtain ⟨_, hne⟩ := bool_and_elim hsels
      have hsubc : ∀ p₂ ∈ collectChildPaths cs, p₂ ∈ S' := by
        intro p₂ hp₂
        refine hsub p₂ ?_
        rw [collect_eq, if_neg (by simp : ¬nd.node_type = TreeNodeType.File)]
        exact hp₂
      obtain ⟨hcsel, hcfile⟩ := hq hcsok hsubc
      have hcsne : cs ≠ [] := by
        intro hc
        subst hc
        simp [collectChildPaths] at hne
      constructor
      · rw [recomputeNode_folder_sel nd hfolder]
        have hne₂ : ¬(recomputeForest nd.children).isEmpty = true := by
          show ¬(recomputeForest cs).isEmpty = true
          rw [recomputeForest_eq_map]
          simpa using hcsne
        rw [if_neg hne₂, if_pos]
        rw [List.all_eq_true]
        intro c hc
        exact decide_eq_true (hcsel c hc)
      · intro m hm hmf
        rw [subNodes_eq] at hm
        rcases List.mem_cons.mp hm with h | h
        · subst h
          rw [(recomputeNode_parts nd).2.2.2.1] at hmf
          exact absurd hmf (by simp [hnd])
        · rw [(recomputeNode_parts nd).2.2.2.2.1] at h
          exact hcfile m h hmf
  · intro _ _
    constructor
    · intro c hc
      cases hc
    · intro m hm
      cases hm
  · intro c cs hp hq hok hsub
    rw [builtForestOK_cons] at hok
    obtain ⟨hcok, hcsok⟩ := bool_and_elim hok
    have hsubc : ∀ p₂ ∈ collect_all_file_paths_recursive c, p₂ ∈ S' := by
      intro p₂ h
      refine hsub p₂ ?_
      rw [collectChildPaths_cons]
      exact List.mem_append_left _ h
    have hsubcs : ∀ p₂ ∈ collectChildPaths cs, p₂ ∈ S' := by
      intro p₂ h
      refine hsub p₂ ?_
      rw [collectChildPaths_cons]
      exact List.mem_append_right _ h
    obtain ⟨hc₁, hc₂⟩ := hp hcok hsubc
    obtain ⟨hcs₁, hcs₂⟩ := hq hcsok hsubcs
    constructor
    · intro x hx
      rw [recomputeForest] at hx
      rcases List.mem_cons.mp hx with h | h
      · subst h; exact hc₁
      · exact hcs₁ x h
    · intro m hm hmf
      rw [recomputeForest, forestNodes_cons] at hm
      rcases List.mem_append.mp hm with h | h
      · exact hc₂ m h hmf
      · exact hcs₂ m h hmf

theorem recompute_notSelected (S' : Finset FsPath) :
    ∀ n : FileTreeNode, builtNodeOK S' n = true →
      (∀ p ∈ collect_all_file_paths_recursive n, p ∉ S') →
      (recomputeNode n).selection_state = NodeSelectionState.NotSelected ∧
      (∀ m ∈ subNodes (recomputeNode n), m.node_type = TreeNodeType.File →
        m.selection_state = NodeSelectionState.NotSelected) := by
  refine nodeForestInd
    (fun n => builtNodeOK S' n = true →
      (∀ p ∈ collect_all_file_paths_recursive n, p ∉ S') →
      (recomputeNode n).selection_state = NodeSelectionState.NotSelected ∧
      (∀ m ∈ subNodes (recomputeNode n), m.node_type = TreeNodeType.File →
        m.selection_state = NodeSelectionState.NotSelected))
    (fun l => builtForestOK S' l = true →
      (∀ p ∈ collectChildPaths l, p ∉ S') →
      (∀ c ∈ recomputeForest l,
        c.selection_state = NodeSelectionState.NotSelected) ∧
      (∀ m ∈ forestNodes (recomputeForest l),
        m.node_type = TreeNodeType.File →
        m.selection_state = NodeSelectionState.NotSelected))
    ?_ ?_ ?_
  · intro i nm p t cs e s d hq hok hsub
    set nd : FileTreeNode := ⟨i, nm, p, t, cs, e, s, d⟩ with hnd
    cases t with
    | File =>
      have hfile : nd.node_type = TreeNodeType.File := rfl
      rw [builtNodeOK_file hfile] at hok
      obtain ⟨hsel, hemp⟩ := bool_and_elim hok
      have hcs : cs = [] := by simpa using hemp
      have hp : p ∉ S' := by
        refine hsub p ?_
        rw [collect_eq, if_pos hfile]
        exact List.mem_singleton.mpr rfl
      have hsels : s = NodeSelectionState.NotSelected := by
        have h₂ : s = memSel S' p := of_decide_eq_true hsel
        rw [h₂, memSel, if_neg hp]
      subst hcs
      subst hsels
      constructor
      · rfl
      · intro m hm _
        have : subNodes (recomputeNode nd) = [recomputeNode nd] := rfl
        rw [this] at hm
        have hms := List.mem_singleton.mp hm
        subst hms
        rfl
    | Folder =>
      have hfolder : nd.node_type = TreeNodeType.Folder := rfl
      rw [builtNodeOK_folder hfolder] at hok
      obtain ⟨hsels, hcsok⟩ := bool_and_elim hok
      obtain ⟨_, hne⟩ := bool_and_elim hsels
      have hsubc : ∀ p₂ ∈ collectChildPaths cs, p₂ ∉ S' := by
        intro p₂ hp₂
        refine hsub p₂ ?_
        rw [collect_eq, if_neg (by simp : ¬nd.node_type = TreeNodeType.File)]
        exact hp₂
      obtain ⟨hcsel, hcfile⟩ := hq hcsok hsubc
      have hcsne : cs ≠ [] := by
        intro hc
        subst hc
        simp [collectChildPaths] at hne
      obtain ⟨c₀, hc₀⟩ := List.exists_mem_of_ne_nil cs hcsne
      have hc₀r : recomputeNode c₀ ∈ recomputeForest cs := by
        rw [recomputeForest_eq_map]
        exact List.mem_map_of_mem recomputeNode hc₀
      constructor
      · rw [recomputeNode_folder_sel nd hfolder]
        have hne₂ : ¬(recomputeForest nd.children).isEmpty = true := by
          show ¬(recomputeForest cs).isEmpty = true
          rw [recomputeForest_eq_map]
          simpa using hcsne
        rw [if_neg hne₂]
        have hallf : ¬(recomputeForest nd.children).all (fun c =>
            decide (c.selection_state = NodeSelectionState.Selected)) = true := by
          show ¬(recomputeForest cs).all _ = true
          rw [List.all_eq_true]
          intro h
          have := of_decide_eq_true (h (recomputeNode c₀) hc₀r)
          rw [hcsel (recomputeNode c₀) hc₀r] at this
          cases this
        rw [if_neg hallf, if_neg]
        rw [Bool.or_eq_true]
        rintro (h | h)
        · obtain ⟨c, hc, hcs⟩ := List.any_eq_true.mp h
          have := of_decide_eq_true hcs
          rw [hcsel c hc] at this
          cases this
        · obtain ⟨c, hc, hcs⟩ := List.any_eq_true.mp h
          have := of_decide_eq_true hcs
          rw [hcsel c hc] at this
          cases this
      · intro m hm hmf
        rw [subNodes_eq] at hm
        rcases List.mem_cons.mp hm with h | h
        · subst h
          rw [(recomputeNode_parts nd).2.2.2.1] at hmf
          exact absurd hmf (by simp [hnd])
        · rw [(recomputeNode_parts nd).2.2.2.2.1] at h
          exact hcfile m h hmf
  · intro _ _
    constructor
    · intro c hc
      cases hc
    · intro m hm
      cases hm
  · intro c cs hp hq hok hsub
    rw [builtForestOK_cons] at hok
    obtain ⟨hcok, hcsok⟩ := bool_and_elim hok
    have hsubc : ∀ p₂ ∈ collect_all_file_paths_recursive c, p₂ ∉ S' := by
      intro p₂ h
      refine hsub p₂ ?_
      rw [collectChildPaths_cons]
      exact List.mem_append_left _ h
    have hsubcs : ∀ p₂ ∈ collectChildPaths cs, p₂ ∉ S' := by
      intro p₂ h
      refine hsub p₂ ?_
      rw [collectChildPaths_cons]
      exact List.mem_append_right _ h
    obtain ⟨hc₁, hc₂⟩ := hp hcok hsubc
    obtain ⟨hcs₁, hcs₂⟩ := hq hcsok hsubcs
    constructor
    · intro x hx
      rw [recomputeForest] at hx
      rcases List.mem_cons.mp hx with h | h
      · subst h; exact hc₁
      · exact hcs₁ x h
    · intro m hm hmf
      rw [recomputeForest, forestNodes_cons] at hm
      rcases List.mem_append.mp hm with h | h
      · exact hc₂ m h hmf
      · exact hcs₂ m h hmf

/-- Behaviour claim C2 requires of one folder node `n` of the forest built
from `files` and `S`: toggling to checked inserts exactly the collected
descendant file paths in one batch (and unchecked removes them), and the
node corresponding to `n` in the rebuilt, recomputed forest — the node at
the same position, with the same id and path — is `Selected` (resp.
`NotSelected`) with every descendant file node `Selected` (resp.
`NotSelected`). -/
def toggledFolderSpec (files : List FileInfo) (S : Finset FsPath)
    (root : FsPath) (n : FileTreeNode) : Prop :=
  toggleNode n true S = S ∪ (collect_all_file_paths_recursive n).toFinset ∧
  toggleNode n false S = S \ (collect_all_file_paths_recursive n).toFinset ∧
  (recomputeNode (applySel (toggleNode n true S) n) ∈
      forestNodes (recomputeForest
        (build_tree_from_file_info files (toggleNode n true S) root)) ∧
    (recomputeNode (applySel (toggleNode n true S) n)).id = n.id ∧
    (recomputeNode (applySel (toggleNode n true S) n)).path = n.path ∧
    (recomputeNode (applySel (toggleNode n true S) n)).selection_state =
      NodeSelectionState.Selected ∧
    ∀ m ∈ subNodes (recomputeNode (applySel (toggleNode n true S) n)),
      m.node_type = TreeNodeType.File →
      m.selection_state = NodeSelectionState.Selected) ∧
  (recomputeNode (applySel (toggleNode n false S) n) ∈
      forestNodes (recomputeForest
        (build_tree_from_file_info files (toggleNode n false S) root)) ∧
    (recomputeNode (applySel (toggleNode n false S) n)).id = n.id ∧
    (recomputeNode (applySel (toggleNode n false S) n)).path = n.path ∧
    (recomputeNode (applySel (toggleNode n false S) n)).selection_state =
      NodeSelectionState.NotSelected ∧
    ∀ m ∈ subNodes (recomputeNode (applySel (toggleNode n false S) n)),
      m.node_type = TreeNodeType.File →
      m.selection_state = NodeSelectionState.NotSelected)

/-- Claim C2: for every folder node in a built forest and every selection
set, toggling that folder to checked inserts the paths of all of its
descendant file leaves (collected depth-first) into the set in one batch,
so that after the rebuild every descendant file is `Selected` and the folder
itself is `Selected`; toggling it to unchecked removes all of those paths,
so that every descendant file is `NotSelected` and the folder is
`NotSelected`. -/
theorem folder_toggle_completeness (files : List FileInfo) (S : Finset FsPath)
    (root : FsPath) (n : FileTreeNode)
    (hn : n ∈ forestNodes (build_tree_from_file_info files S root))
    (hf : n.node_type = TreeNodeType.Folder) :
    toggledFolderSpec files S root n := by
  have hset_t : toggleNode n true S =
      S ∪ (collect_all_file_paths_recursive n).toFinset := by
    ext x
    rw [toggleNode_true_mem]
    simp [List.mem_toFinset]
  have hset_f : toggleNode n false S =
      S \ (collect_all_file_paths_recursive n).toFinset := by
    ext x
    rw [toggleNode_false_mem]
    simp [Finset.mem_sdiff, List.mem_toFinset]
  have key : ∀ S' : Finset FsPath,
      applySel S' n ∈ forestNodes (build_tree_from_file_info files S' root) := by
    intro S'
    rw [build_applySel files S' S root, forestNodes_applySelForest]
    exact List.mem_map_of_mem _ hn
  have hok : ∀ S' : Finset FsPath, builtNodeOK S' (applySel S' n) = true :=
    fun S' => builtNodeOK_of_mem _ (builtForestOK_build files S' root) _ (key S')
  have hmemrec : ∀ S' : Finset FsPath,
      recomputeNode (applySel S' n) ∈
        forestNodes (recomputeForest (build_tree_from_file_info files S' root)) := by
    intro S'
    rw [forestNodes_recomputeForest]
    exact List.mem_map_of_mem _ (key S')
  have hid : ∀ S' : Finset FsPath,
      (recomputeNode (applySel S' n)).id = n.id :=
    fun S' => ((recomputeNode_parts _).1).trans (applySel_parts S' n).1
  have hpath : ∀ S' : Finset FsPath,
      (recomputeNode (applySel S' n)).path = n.path :=
    fun S' => ((recomputeNode_parts _).2.2.1).trans (applySel_parts S' n).2.2.1
  have hsub_t : ∀ p ∈ collect_all_file_paths_recursive
      (applySel (toggleNode n true S) n), p ∈ toggleNode n true S := by
    intro p hp
    rw [collect_applySel] at hp
    rw [toggleNode_true_mem]
    exact Or.inr hp
  have hsub_f : ∀ p ∈ collect_all_file_paths_recursive
      (applySel (toggleNode n false S) n), p ∉ toggleNode n false S := by
    intro p hp hmem
    rw [collect_applySel] at hp
    rw [toggleNode_false_mem] at hmem
    exact hmem.2 hp
  have hsel_t := recompute_selected (toggleNode n true S)
    (applySel (toggleNode n true S) n) (hok _) hsub_t
  have hsel_f := recompute_notSelected (toggleNode n false S)
    (applySel (toggleNode n false S) n) (hok _) hsub_f
  exact ⟨hset_t, hset_f,
    ⟨hmemrec _, hid _, hpath _, hsel_t.1, hsel_t.2⟩,
    ⟨hmemrec _, hid _, hpath _, hsel_f.1, hsel_f.2⟩⟩

/-- The example `src` folder as the tree builder produces it (provisional
`NotSelected` state). -/
def exSrcBuilt : FileTreeNode :=
  ⟨0, "src", ⟨true, ["ws", "src"]⟩, TreeNodeType.Folder, [exNodeA, exNodeB],
    true, NodeSelectionState.NotSelected, 0⟩

theorem folder_toggle_completeness_witness :
    exSrcBuilt ∈ forestNodes
      (build_tree_from_file_info [exFileA, exFileB] exSel exRoot) ∧
    exSrcBuilt.node_type = TreeNodeType.Folder ∧
    toggledFolderSpec [exFileA, exFileB] exSel exRoot exSrcBuilt := by
  have hmem : exSrcBuilt ∈ forestNodes
      (build_tree_from_file_info [exFileA, exFileB] exSel exRoot) := by
    have h : forestNodes (build_tree_from_file_info [exFileA, exFileB] exSel exRoot)
        = [exSrcBuilt, exNodeA, exNodeB] := rfl
    rw [h]
    exact List.mem_cons_self _ _
  exact ⟨hmem, rfl,
    folder_toggle_completeness [exFileA, exFileB] exSel exRoot exSrcBuilt hmem rfl⟩

/-- Two sibling nodes conflict when they share both name and kind. -/
def sibConflict (a b : FileTreeNode) : Bool :=
  decide (a.name = b.name) && decide (a.node_type = b.node_type)

/-- No two nodes of the list share a `(name, kind)` pair. -/
def distinctSibs : List FileTreeNode → Bool
  | [] => true
  | c :: cs => cs.all (fun b => !sibConflict c b) && distinctSibs cs

mutual

/-- Position invariant of one node relative to the workspace root and the
folder-name chain above it: the node's path is the root extended by the
chain and its own name, its children list is `(name, kind)`-duplicate-free,
and the same holds below. -/
def posNodeOK (root : FsPath) (chain : List String) : FileTreeNode → Bool
  | ⟨_, nm, p, _, cs, _, _, _⟩ =>
    decide (p = root.extend (chain ++ [nm])) && distinctSibs cs &&
      posForestOK root (chain ++ [nm]) cs

/-- Position invariant of a children list. -/
def posForestOK (root : FsPath) (chain : List String) :
    List FileTreeNode → Bool
  | [] => true
  | c :: cs => posNodeOK root chain c && posForestOK root chain cs

end

theorem distinctSibs_iff_pairwise (l : List FileTreeNode) :
    distinctSibs l = true ↔ l.Pairwise (fun a b => sibConflict a b = false) := by
  induction l with
  | nil => simp [distinctSibs]
  | cons c cs ih =>
    rw [distinctSibs, List.pairwise_cons]
    constructor
    · intro h
      obtain ⟨h1, h2⟩ := bool_and_elim h
      refine ⟨fun b hb => ?_, ih.mp h2⟩
      have := List.all_eq_true.mp h1 b hb
      simpa using this
    · rintro ⟨h1, h2⟩
      have ha : cs.all (fun b => !sibConflict c b) = true :=
        List.all_eq_true.mpr (fun b hb => by simpa using h1 b hb)
      rw [ha, ih.mpr h2]
      rfl

theorem sibConflict_congr {c c' : FileTreeNode} (hn : c'.name = c.name)
    (ht : c'.node_type = c.node_type) (a : FileTreeNode) :
    sibConflict a c' = sibConflict a c ∧ sibConflict c' a = sibConflict c a := by
  rw [sibConflict, sibConflict, sibConflict, sibConflict, hn, ht]
  exact ⟨rfl, rfl⟩

theorem posNodeOK_eq (root : FsPath) (chain : List String) (n : FileTreeNode) :
    posNodeOK root chain n =
      (decide (n.path = root.extend (chain ++ [n.name])) &&
        distinctSibs n.children &&
        posForestOK root (chain ++ [n.name]) n.children) := by
  cases n; rfl

theorem posForestOK_cons (root : FsPath) (chain : List String)
    (c : FileTreeNode) (cs : List FileTreeNode) :
    posForestOK root chain (c :: cs) =
      (posNodeOK root chain c && posForestOK root chain cs) := rfl

theorem posForestOK_append (root : FsPath) (chain : List String)
    (l₁ l₂ : List FileTreeNode) :
    posForestOK root chain (l₁ ++ l₂) =
      (posForestOK root chain l₁ && posForestOK root chain l₂) := by
  induction l₁ with
  | nil => rfl
  | cons c cs ih => simp [posForestOK_cons, ih, Bool.and_assoc]

theorem posNodeOK_of_mem (root : FsPath) (chain : List String) :
    ∀ l, posForestOK root chain l = true →
      ∀ b ∈ l, posNodeOK root chain b = true := by
  intro l
  induction l with
  | nil => intro _ b hb; cases hb
  | cons c cs ih =>
    intro h b hb
    rw [posForestOK_cons] at h
    obtain ⟨h1, h2⟩ := bool_and_elim h
    rcases List.mem_cons.mp hb with hbc | hbc
    · exact hbc ▸ h1
    · exact ih h2 b hbc

theorem mem_insertByPath {x f : FileInfo} :
    ∀ l, x ∈ insertByPath f l → x = f ∨ x ∈ l := by
  intro l
  induction l with
  | nil =>
    intro h
    rw [insertByPath] at h
    exact Or.inl (List.mem_singleton.mp h)
  | cons g gs ih =>
    intro h
    rw [insertByPath] at h
    split at h
    · rcases List.mem_cons.mp h with hx | hx
      · exact Or.inr (hx ▸ List.mem_cons_self g gs)
      · rcases ih hx with hx₂ | hx₂
        · exact Or.inl hx₂
        · exact Or.inr (List.mem_cons_of_mem g hx₂)
    · rcases List.mem_cons.mp h with hx | hx
      · exact Or.inl hx
      · exact Or.inr hx

theorem mem_sortByPath {x : FileInfo} :
    ∀ l, x ∈ sortByPath l → x ∈ l := by
  intro l
  induction l with
  | nil => intro h; cases h
  | cons f fs ih =>
    intro h
    rw [sortByPath] at h
    rcases mem_insertByPath (sortByPath fs) h with hx | hx
    · exact hx ▸ List.mem_cons_self f fs
    · exact List.mem_cons_of_mem f (ih hx)

theorem relComps_of_under_root (root : FsPath) (f : FileInfo)
    (comps : List String) (hne : comps ≠ []) (hhead : comps.head? ≠ some "/")
    (hpath : f.path = root.extend comps) :
    relComps root f = comps := by
  have hcomp : f.path.compList = root.compList ++ comps := by
    rw [hpath]
    show (if root.absolute then ["/"] else []) ++ (root.comps ++ comps) = _
    rw [FsPath.compList, List.append_assoc]
  have hpref : root.compList.isPrefixOf f.path.compList = true := by
    rw [List.isPrefixOf_iff_prefix, hcomp]
    exact List.prefix_append _ _
  rw [relComps, FsPath.stripRoot, if_pos hpref, hcomp, List.drop_left,
    FsPath.ofCompList, if_neg hhead]
  show (if (FsPath.mk false comps).compList ≠ [] then
      (FsPath.mk false comps).compList
    else if f.name = "" then [] else [f.name]) = comps
  have h₂ : (FsPath.mk false comps).compList = comps := rfl
  rw [h₂, if_pos hne]

theorem distinctSibs_append_single (l : List FileTreeNode) (x : FileTreeNode)
    (hl : distinctSibs l = true) (hx : ∀ a ∈ l, sibConflict a x = false) :
    distinctSibs (l ++ [x]) = true := by
  rw [distinctSibs_iff_pairwise, List.pairwise_append]
  exact ⟨(distinctSibs_iff_pairwise l).mp hl, List.pairwise_singleton _ _,
    fun a ha b hb => (List.mem_singleton.mp hb) ▸ hx a ha⟩

theorem distinctSibs_replace (pre post : List FileTreeNode)
    {c c' : FileTreeNode} (hn : c'.name = c.name) (ht : c'.node_type = c.node_type)
    (h : distinctSibs (pre ++ c :: post) = true) :
    distinctSibs (pre ++ c' :: post) = true := by
  rw [distinctSibs_iff_pairwise, List.pairwise_append] at h ⊢
  obtain ⟨h1, h2, h3⟩ := h
  rw [List.pairwise_cons] at h2 ⊢
  refine ⟨h1, ⟨fun b hb => ?_, h2.2⟩, fun a ha b hb => ?_⟩
  · rw [(sibConflict_congr hn ht b).2]
    exact h2.1 b hb
  · rcases List.mem_cons.mp hb with hb₂ | hb₂
    · rw [hb₂, (sibConflict_congr hn ht a).1]
      exact h3 a ha c (List.mem_cons_self c post)
    · exact h3 a ha b (List.mem_cons_of_mem c hb₂)

theorem posOK_insertComps (root fp : FsPath) (sel : NodeSelectionState) :
    ∀ comps acc depth children counter,
      fp = root.extend (acc ++ comps) →
      distinctSibs children = true →
      posForestOK root acc children = true →
      distinctSibs
        (insertComps root fp sel comps acc depth children counter).1 = true ∧
      posForestOK root acc
        (insertComps root fp sel comps acc depth children counter).1 = true
  | [], acc, depth, children, counter, _, hd, hp => by
    rw [insertComps]; exact ⟨hd, hp⟩
  | [name], acc, depth, children, counter, hfp, hd, hp => by
    rw [insertComps]
    split
    · exact ⟨hd, hp⟩
    · rename_i hguard
      set fnode : FileTreeNode :=
        ⟨counter, name, fp, TreeNodeType.File, [], false, sel, depth⟩ with hfnode
      have hconf : ∀ a ∈ children, sibConflict a fnode = false := by
        intro a ha
        by_contra hcon
        have hcon₂ : sibConflict a fnode = true := by
          cases hcf : sibConflict a fnode
          · exact absurd hcf hcon
          · rfl
        rw [sibConflict] at hcon₂
        obtain ⟨hna, hta⟩ := bool_and_elim hcon₂
        have hname : a.name = name := of_decide_eq_true hna
        have htype : a.node_type = TreeNodeType.File := of_decide_eq_true hta
        have hpos := posNodeOK_of_mem root acc children hp a ha
        rw [posNodeOK_eq] at hpos
        obtain ⟨hpp, _⟩ := bool_and_elim hpos
        obtain ⟨hpp₂, _⟩ := bool_and_elim hpp
        have hpa : a.path = fp := by
          rw [of_decide_eq_true hpp₂, hname, hfp]
        exact hguard (List.any_eq_true.mpr
          ⟨a, ha, decide_eq_true ⟨hpa, htype⟩⟩)
      constructor
      · exact distinctSibs_append_single children fnode hd hconf
      · rw [posForestOK_append, hp, posForestOK_cons]
        have hok : posNodeOK root acc fnode = true := by
          rw [posNodeOK_eq]
          have : fnode.path = root.extend (acc ++ [fnode.name]) := hfp
          rw [this]
          simp [distinctSibs, posForestOK]
        rw [hok]
        rfl
  | name :: comps₂ :: comps, acc, depth, children, counter, hfp, hd, hp => by
    have hfp₂ : fp = root.extend ((acc ++ [name]) ++ (comps₂ :: comps)) := by
      rw [hfp, List.append_assoc, List.singleton_append]
    rw [insertComps]
    cases hsp : splitAtFolder name children with
    | some x =>
      obtain ⟨pre, c, post⟩ := x
      simp only
      have hc := splitAtFolder_eq_some name children pre c post hsp
      have hpos := posNodeOK_of_mem root acc children hp c
        (hc.1 ▸ List.mem_append_right pre (List.mem_cons_self c post))
      rw [posNodeOK_eq] at hpos
      obtain ⟨hp₁, hcrec⟩ := bool_and_elim hpos
      obtain ⟨hcpath, hcdist⟩ := bool_and_elim hp₁
      have ih := posOK_insertComps root fp sel (comps₂ :: comps) (acc ++ [name])
        (depth + 1) c.children counter (by rw [hfp₂]) hcdist
        (by rw [← hc.2.1]; exact hcrec)
      set r := insertComps root fp sel (comps₂ :: comps) (acc ++ [name])
        (depth + 1) c.children counter with hr
      have hw := withChildren_parts c r.1
      constructor
      · rw [List.append_assoc, List.singleton_append]
        refine distinctSibs_replace pre post hw.2.1
          (hw.2.2.2.1) ?_
        rw [← hc.1]
        exact hd
      · rw [hc.1, posForestOK_append, posForestOK_cons] at hp
        obtain ⟨hppre, hprest⟩ := bool_and_elim hp
        obtain ⟨_, hppost⟩ := bool_and_elim hprest
        rw [List.append_assoc, List.singleton_append, posForestOK_append,
          posForestOK_cons, hppre, hppost]
        have hok : posNodeOK root acc { c with children := r.1 } = true := by
          rw [posNodeOK_eq, hw.2.1, hw.2.2.1, hw.2.2.2.2.1]
          rw [of_decide_eq_true hcpath]
          have hnm : c.name = name := hc.2.1
          rw [hnm]
          simp [ih.1, ih.2]
        rw [hok]
        rfl
    | none =>
      simp only
      have ih := posOK_insertComps root fp sel (comps₂ :: comps) (acc ++ [name])
        (depth + 1) [] (counter + 1) (by rw [hfp₂]) rfl rfl
      set r := insertComps root fp sel (comps₂ :: comps) (acc ++ [name])
        (depth + 1) [] (counter + 1) with hr
      set fnode : FileTreeNode :=
        ⟨counter, name, root.extend (acc ++ [name]), TreeNodeType.Folder, r.1,
          decide (depth = 0), NodeSelectionState.NotSelected, depth⟩ with hfnode
      have hnone := splitAtFolder_eq_none name children hsp
      have hconf : ∀ a ∈ children, sibConflict a fnode = false := by
        intro a ha
        by_contra hcon
        have hcon₂ : sibConflict a fnode = true := by
          cases hcf : sibConflict a fnode
          · exact absurd hcf hcon
          · rfl
        rw [sibConflict] at hcon₂
        obtain ⟨hna, hta⟩ := bool_and_elim hcon₂
        exact hnone a ha ⟨of_decide_eq_true hna, of_decide_eq_true hta⟩
      constructor
      · exact distinctSibs_append_single children fnode hd hconf
      · rw [posForestOK_append, hp, posForestOK_cons]
        have hok : posNodeOK root acc fnode = true := by
          rw [posNodeOK_eq]
          have h₁ : fnode.path = root.extend (acc ++ [fnode.name]) := rfl
          rw [h₁]
          simp [ih.1, ih.2]
        rw [hok]
        rfl

theorem build_posOK (files : List FileInfo) (S : Finset FsPath) (root : FsPath)
    (hfiles : ∀ f ∈ files, ∃ comps, comps ≠ [] ∧ comps.head? ≠ some "/" ∧
      f.path = root.extend comps) :
    distinctSibs (build_tree_from_file_info files S root) = true ∧
    posForestOK root [] (build_tree_from_file_info files S root) = true := by
  rw [build_tree_from_file_info]
  split
  · exact ⟨rfl, rfl⟩
  · have main : ∀ l : List FileInfo,
        (∀ f ∈ l, ∃ comps, comps ≠ [] ∧ comps.head? ≠ some "/" ∧
          f.path = root.extend comps) →
        ∀ st : List FileTreeNode × Nat,
          distinctSibs st.1 = true → posForestOK root [] st.1 = true →
          distinctSibs ((l.foldl (fun st f =>
            let sel := if f.path ∈ S then NodeSelectionState.Selected
                       else NodeSelectionState.NotSelected
            insertComps root f.path sel (relComps root f) [] 0 st.1 st.2)
            st).1) = true ∧
          posForestOK root [] ((l.foldl (fun st f =>
            let sel := if f.path ∈ S then NodeSelectionState.Selected
                       else NodeSelectionState.NotSelected
            insertComps root f.path sel (relComps root f) [] 0 st.1 st.2)
            st).1) = true := by
      intro l
      induction l with
      | nil => intro _ st h1 h2; exact ⟨h1, h2⟩
      | cons f fs ih =>
        intro hl st h1 h2
        rw [List.foldl_cons]
        obtain ⟨comps, hne, hhead, hpath⟩ := hl f (List.mem_cons_self f fs)
        have hrel := relComps_of_under_root root f comps hne hhead hpath
        have hstep := posOK_insertComps root f.path (memSel S f.path)
          (relComps root f) [] 0 st.1 st.2 (by rw [hrel]; exact hpath) h1 h2
        exact ih (fun g hg => hl g (List.mem_cons_of_mem f hg)) _
          hstep.1 hstep.2
    exact main (sortByPath files)
      (fun f hf => hfiles f (mem_sortByPath files hf)) ([], 0) rfl rfl

theorem distinctSibs_of_posForestOK (root : FsPath) :
    ∀ l : List FileTreeNode, ∀ chain, posForestOK root chain l = true →
      ∀ n ∈ forestNodes l, distinctSibs n.children = true := by
  refine forestInd
    (fun c => ∀ chain, posNodeOK root chain c = true →
      ∀ x ∈ subNodes c, distinctSibs x.children = true)
    (fun l => ∀ chain, posForestOK root chain l = true →
      ∀ n ∈ forestNodes l, distinctSibs n.children = true)
    ?_ ?_ ?_
  · intro i nm p t cs e s d hq chain hok x hx
    set nd : FileTreeNode := ⟨i, nm, p, t, cs, e, s, d⟩ with hnd
    rw [posNodeOK_eq] at hok
    obtain ⟨h₁, hrec⟩ := bool_and_elim hok
    obtain ⟨_, hdist⟩ := bool_and_elim h₁
    rw [subNodes_eq] at hx
    rcases List.mem_cons.mp hx with h | h
    · subst h
      exact hdist
    · exact hq (chain ++ [nd.name]) hrec x h
  · intro _ _ n hn; cases hn
  · intro c cs hp hq chain hok n hn
    rw [posForestOK_cons] at hok
    obtain ⟨h₁, h₂⟩ := bool_and_elim hok
    rw [forestNodes_cons] at hn
    rcases List.mem_append.mp hn with h | h
    · exact hp chain h₁ n h
    · exact hq chain h₂ n h

/-- Example record: a file named `foo` directly under the workspace root. -/
def exWsFoo : FileInfo := ⟨"foo", ⟨true, ["ws", "foo"]⟩, 0, 0⟩

/-- Example record: a file `foo/bar.txt`, making `foo` also a folder name. -/
def exFooBarFile : FileInfo := ⟨"bar.txt", ⟨true, ["ws", "foo", "bar.txt"]⟩, 0, 0⟩

/-- Example record lying outside the workspace root (the builder's defensive
fallback turns it into a top-level node named after the bare file name). -/
def exOutFoo : FileInfo := ⟨"foo", ⟨true, ["out", "foo"]⟩, 0, 0⟩

/-- Claim C9 (amended): when every input record's path lies under the
workspace root, each parent's children list in the built forest contains
exactly one node per distinct `(name, kind)` pair; and an input containing
both a file `foo` and a path `foo/bar.txt` yields a `File` node `foo` and a
`Folder` node `foo` as two separate sibling nodes, never merged.  (The
under-the-root restriction is forced: the fallback for out-of-root paths can
create two sibling `File` nodes sharing one name — see the
counterexample.) -/
theorem sibling_uniqueness (files : List FileInfo) (S : Finset FsPath)
    (root : FsPath)
    (hfiles : ∀ f ∈ files, ∃ comps, comps ≠ [] ∧ comps.head? ≠ some "/" ∧
      f.path = root.extend comps) :
    (distinctSibs (build_tree_from_file_info files S root) = true ∧
     ∀ n ∈ forestNodes (build_tree_from_file_info files S root),
       distinctSibs n.children = true) ∧
    (build_tree_from_file_info [exWsFoo, exFooBarFile] ∅ exRoot).map
      (fun n => (n.name, n.node_type)) =
      [("foo", TreeNodeType.File), ("foo", TreeNodeType.Folder)] := by
  have hb := build_posOK files S root hfiles
  exact ⟨⟨hb.1, distinctSibs_of_posForestOK root _ [] hb.2⟩, rfl⟩

theorem sibling_uniqueness_witness :
    (∀ f ∈ [exFileA, exFileB], ∃ comps, comps ≠ [] ∧
      comps.head? ≠ some "/" ∧ f.path = exRoot.extend comps) ∧
    ((distinctSibs (build_tree_from_file_info [exFileA, exFileB] exSel exRoot)
        = true ∧
      ∀ n ∈ forestNodes (build_tree_from_file_info [exFileA, exFileB] exSel exRoot),
        distinctSibs n.children = true) ∧
     (build_tree_from_file_info [exWsFoo, exFooBarFile] ∅ exRoot).map
       (fun n => (n.name, n.node_type)) =
       [("foo", TreeNodeType.File), ("foo", TreeNodeType.Folder)]) := by
  have hfiles : ∀ f ∈ [exFileA, exFileB], ∃ comps, comps ≠ [] ∧
      comps.head? ≠ some "/" ∧ f.path = exRoot.extend comps := by
    intro f hf
    rcases List.mem_cons.mp hf with h | h
    · exact ⟨["src", "a.rs"], by decide, by decide, by rw [h]; rfl⟩
    · rcases List.mem_cons.mp h with h₂ | h₂
      · exact ⟨["src", "b.rs"], by decide, by decide, by rw [h₂]; rfl⟩
      · cases h₂
  exact ⟨hfiles, sibling_uniqueness [exFileA, exFileB] exSel exRoot hfiles⟩

/-- Claim C9 counterexample: with an input record lying outside the
workspace root, the builder's fallback creates two sibling `File` nodes that
share the `(name, kind)` pair `("foo", File)` (with different paths), so the
built forest does not contain exactly one node per distinct pair as the
claim universally states. -/
theorem sibling_uniqueness_counterexample :
    (build_tree_from_file_info [exOutFoo, exWsFoo] ∅ exRoot).map
      (fun n => (n.name, n.node_type)) =
      [("foo", TreeNodeType.File), ("foo", TreeNodeType.File)] ∧
    (build_tree_from_file_info [exOutFoo, exWsFoo] ∅ exRoot).map
      (fun n => n.path) =
      [⟨true, ["out", "foo"]⟩, ⟨true, ["ws", "foo"]⟩] ∧
    distinctSibs (build_tree_from_file_info [exOutFoo, exWsFoo] ∅ exRoot) =
      false :=
  ⟨rfl, rfl, rfl⟩

theorem foldl_seed_mem (processed : List String) :
    ∀ (l : List String) (acc : Finset String) (f : String),
      f ∈ l.foldl (fun acc g =>
        if !is_file_ignored g processed then insert g acc else acc) acc ↔
      f ∈ acc ∨ (f ∈ l ∧ is_file_ignored f processed = false) := by
  intro l
  induction l with
  | nil => simp
  | cons g gs ih =>
    intro acc f
    rw [List.foldl_cons]
    by_cases hg : is_file_ignored g processed = true
    · rw [if_neg (by simp [hg]), ih]
      constructor
      · rintro (h | h)
        · exact Or.inl h
        · exact Or.inr ⟨List.mem_cons_of_mem g h.1, h.2⟩
      · rintro (h | ⟨hmem, hign⟩)
        · exact Or.inl h
        · rcases List.mem_cons.mp hmem with hfg | hfg
          · rw [hfg] at hign
            rw [hign] at hg
            cases hg
          · exact Or.inr ⟨hfg, hign⟩
    · have hg₂ : is_file_ignored g processed = false := by
        cases h : is_file_ignored g processed
        · rfl
        · exact absurd h hg
      rw [if_pos (by simp [hg₂]), ih]
      constructor
      · rintro (h | h)
        · rcases Finset.mem_insert.mp h with hfg | hfa
          · exact Or.inr ⟨hfg ▸ List.mem_cons_self g gs, hfg ▸ hg₂⟩
          · exact Or.inl hfa
        · exact Or.inr ⟨List.mem_cons_of_mem g h.1, h.2⟩
      · rintro (h | ⟨hmem, hign⟩)
        · exact Or.inl (Finset.mem_insert_of_mem h)
        · rcases List.mem_cons.mp hmem with hfg | hfg
          · exact Or.inl (Finset.mem_insert.mpr (Or.inl hfg))
          · exact Or.inr ⟨hfg, hign⟩

/-- Claim C3: when a `.gitignore` exists at the workspace root, the seeded
selection set contains exactly those crawled relative file paths that are
not matched as ignored by the ordered pattern list (later patterns override
earlier ones, negated patterns re-include); in particular, for the crawled
files `["src/main.rs", "build/out.o"]` and the single pattern `"build/"`,
the seeded selection set is exactly `{"src/main.rs"}`.  The pattern matcher
itself is modelled from the spec (the `ignore` crate is external to this
repository). -/
theorem gitignore_seeding :
    (∀ (all_files raw : List String) (s : Finset String),
      handle_workspace_opened all_files (some (Except.ok raw)) =
        Except.ok s →
      ∀ f, f ∈ s ↔ f ∈ all_files ∧
        is_file_ignored f (preprocess_gitignore_lines raw) = false) ∧
    handle_workspace_opened ["src/main.rs", "build/out.o"]
      (some (Except.ok ["build/"])) = Except.ok {"src/main.rs"} := by
  constructor
  · intro all_files raw s h f
    rw [handle_workspace_opened] at h
    have hs : (all_files.foldl (fun acc g =>
        if !is_file_ignored g (preprocess_gitignore_lines raw) then
          insert g acc else acc) ∅) = s := by
      exact Except.ok.inj h
    rw [← hs, foldl_seed_mem]
    simp
  · decide

theorem gitignore_seeding_witness :
    ("src/main.rs" ∈ ({"src/main.rs"} : Finset String) ↔
      "src/main.rs" ∈ ["src/main.rs", "build/out.o"] ∧
      is_file_ignored "src/main.rs"
        (preprocess_gitignore_lines ["build/"]) = false) :=
  gitignore_seeding.1 ["src/main.rs", "build/out.o"] ["build/"]
    {"src/main.rs"} (by decide) "src/main.rs"

/-- Claim C8: evaluating a file path against the processed pattern list never
fails the load: a malformed pattern is skipped and evaluation continues with
the remaining patterns — the result over a list with a malformed pattern
inserted equals the result over the list without it — and the function still
returns an ignored / not-ignored answer for every path.  The pattern
compiler is modelled from the spec (the `ignore` crate is external to this
repository). -/
theorem malformed_pattern_skipped (path m : String) (pre post : List String)
    (hm : parsePattern m = none) :
    is_file_ignored path (pre ++ m :: post) =
      is_file_ignored path (pre ++ post) ∧
    (is_file_ignored path (pre ++ m :: post) = true ∨
     is_file_ignored path (pre ++ m :: post) = false) := by
  constructor
  · rw [is_file_ignored, is_file_ignored]
    simp only [List.filterMap_append, List.filterMap_cons, hm]
  · cases h : is_file_ignored path (pre ++ m :: post)
    · exact Or.inr rfl
    · exact Or.inl rfl

theorem malformed_pattern_skipped_witness :
    parsePattern "a[b" = none ∧
    (is_file_ignored "keep.log" (["*.log"] ++ "a[b" :: ["!keep.log"]) =
      is_file_ignored "keep.log" (["*.log"] ++ ["!keep.log"]) ∧
    (is_file_ignored "keep.log" (["*.log"] ++ "a[b" :: ["!keep.log"]) = true ∨
     is_file_ignored "keep.log" (["*.log"] ++ "a[b" :: ["!keep.log"]) = false)) :=
  ⟨by decide,
    malformed_pattern_skipped "keep.log" "a[b" ["*.log"] ["!keep.log"]
      (by decide)⟩

/-- One output block of `concat_files`: the `@@@` header line, a blank line,
then the file's content. -/
def fileBlock (common : FsPath) (contents : FsPath → String) (p : FsPath) :
    String :=
  "@@@ " ++ headerPath common p ++ " @@@\n\n" ++ contents p

/-- Tail of the joined output: a `\n\n` separator before each remaining
block. -/
def sepTail : List String → String
  | [] => ""
  | b :: bs => "\n\n" ++ b ++ sepTail bs

theorem joinBlocks_cons (b : String) (bs : List String) :
    joinBlocks (b :: bs) = b ++ sepTail bs := by
  induction bs generalizing b with
  | nil => rw [joinBlocks, sepTail, String.append_empty]
  | cons b₂ bs₂ ih =>
    rw [joinBlocks, sepTail, ih b₂, String.append_assoc, String.append_assoc]

theorem concat_fold_aux (common : FsPath) (contents : FsPath → String) :
    ∀ (l : List FsPath) (acc : String),
      (l.foldl (fun (st : String × Bool) path =>
        ((if !st.2 then st.1 ++ "\n\n" else st.1) ++ "@@@ " ++
          headerPath common path ++ " @@@\n\n" ++ contents path, false))
        (acc, false)).1 =
      acc ++ sepTail (l.map (fileBlock common contents)) := by
  intro l
  induction l with
  | nil =>
    intro acc
    rw [List.map_nil, sepTail, String.append_empty]
    rfl
  | cons p ps ih =>
    intro acc
    rw [List.foldl_cons]
    show (ps.foldl _ ((acc ++ "\n\n") ++ "@@@ " ++
      headerPath common p ++ " @@@\n\n" ++ contents p, false)).1 = _
    rw [ih, List.map_cons, sepTail, fileBlock]
    simp only [String.append_assoc]

/-- Claim C6: for every ordered non-empty list of selected absolute file
paths with the common-ancestor directory computed as in the source, the
concatenation output is the files' blocks — a header line of the exact form
`@@@ <path> @@@` followed by a blank line, then the content — joined with
`\n\n` between consecutive blocks and no trailing separator, where each
header path is the file's path relative to the common ancestor with `./`
prepended when it is not rooted and does not already start with `./`; in
particular two files `a.txt`="X" and `b.txt`="Y" at a common root produce
exactly `"@@@ ./a.txt @@@\n\nX\n\n@@@ ./b.txt @@@\n\nY"`. -/
theorem concat_format :
    (∀ (paths : List FsPath) (contents : FsPath → String), paths ≠ [] →
      concat_files paths contents =
        joinBlocks (paths.map (fileBlock (commonParent paths) contents))) ∧
    concat_files [⟨true, ["r", "a.txt"]⟩, ⟨true, ["r", "b.txt"]⟩]
      (fun p => if p = ⟨true, ["r", "a.txt"]⟩ then "X" else "Y") =
      "@@@ ./a.txt @@@\n\nX\n\n@@@ ./b.txt @@@\n\nY" := by
  constructor
  · intro paths contents hne
    obtain ⟨p, ps, rfl⟩ := List.exists_cons_of_ne_nil hne
    rw [List.map_cons, joinBlocks_cons]
    show (ps.foldl (fun (st : String × Bool) path =>
        ((if !st.2 then st.1 ++ "\n\n" else st.1) ++ "@@@ " ++
          headerPath (commonParent (p :: ps)) path ++ " @@@\n\n" ++
          contents path, false))
        ("" ++ "@@@ " ++ headerPath (commonParent (p :: ps)) p ++
          " @@@\n\n" ++ contents p, false)).1 =
      fileBlock (commonParent (p :: ps)) contents p ++
        sepTail (ps.map (fileBlock (commonParent (p :: ps)) contents))
    rw [concat_fold_aux, fileBlock]
    simp only [String.empty_append, String.append_assoc]
  · decide

theorem concat_format_witness :
    ([⟨true, ["r", "a.txt"]⟩, ⟨true, ["r", "b.txt"]⟩] : List FsPath) ≠ [] ∧
    concat_files [⟨true, ["r", "a.txt"]⟩, ⟨true, ["r", "b.txt"]⟩]
      (fun p => if p = ⟨true, ["r", "a.txt"]⟩ then "X" else "Y") =
      joinBlocks (([⟨true, ["r", "a.txt"]⟩, ⟨true, ["r", "b.txt"]⟩] :
          List FsPath).map
        (fileBlock
          (commonParent [⟨true, ["r", "a.txt"]⟩, ⟨true, ["r", "b.txt"]⟩])
          (fun p => if p = ⟨true, ["r", "a.txt"]⟩ then "X" else "Y"))) :=
  ⟨by decide, concat_format.1 _ _ (by decide)⟩
